import Mathlib

/-!
Verification of the geometric reordering engine of `src/nodes/vector/vertices_sort.py`.

The embedding models points as integer triples (the engine never branches on
anything but comparisons and equality of coordinates, so integer coordinates
exercise every control path), Python lists as `List`, and Python exceptions
(`IndexError`, `ValueError`/`KeyError` on failed lookups) as `Except String`.
Python's `sorted` is a stable sort; any two stable sorts with respect to the
same total preorder agree, so it is modelled by `List.insertionSort` (which is
stable: see the worked example in Mathlib's `Data.List.Sort`).  `sorted(...,
reverse=True)` keeps tied elements in their original relative order, which is
exactly `insertionSort` with the flipped comparison.
-/

namespace VSort

/-- A point: three coordinates, compared only for order and equality. -/
abbrev Pt := Int × Int × Int

/-- An edge: a pair of original vertex indices, as in the Python lists `[a, b]`. -/
abbrev Edge := Nat × Nat

/-- A limit as built by `find_limits`: `(vertex index, endpoint side, edge index)`. -/
abbrev Limit := Nat × Nat × Nat

/-- Reading `verts_in[i]`.  Call sites either establish `i < length` or model
Python's `IndexError` explicitly before using this. -/
def lookupPt (v : List Pt) (i : Nat) : Pt := v.getD i default

/-- Python's `list.index`, returning the first position of `a`; total here, the
call sites only use it when `a` is a member (as the source does). -/
def posOf [DecidableEq α] (a : α) : List α → Nat
  | [] => 0
  | b :: l => if b = a then 0 else posOf a l + 1

/-! ### The stable sorting model shared by the XYZ and Auto Direction modes

The node decorates each point with its original index —
`s_v = ((e[0], e[1], e[2], i) for i, e in enumerate(v))` — and sorts the
decorated tuples; `decorateFrom` models `enumerate` (with the index second,
as the tuple's last component). -/

def decorateFrom (k : Nat) : List Pt → List (Pt × Nat)
  | [] => []
  | p :: ps => (p, k) :: decorateFrom (k + 1) ps

def decorate (v : List Pt) : List (Pt × Nat) := decorateFrom 0 v

/-- Component access used by `itemgetter(0) / (1) / (2)` on a decorated tuple. -/
def coordAt : Nat → Pt → Int
  | 0, p => p.1
  | 1, p => p.2.1
  | _, p => p.2.2

/-- Comparison of one XYZ pass: `sorted(s_v, key=itemgetter(k), reverse=rev)`.
With `rev` the comparison flips but stability still keeps ties in their
incoming relative order, exactly like CPython. -/
def passLe (k : Nat) (rev : Bool) (u v : Pt × Nat) : Prop :=
  if rev then coordAt k v.1 ≤ coordAt k u.1 else coordAt k u.1 ≤ coordAt k v.1

instance passLeDec (k : Nat) (rev : Bool) : DecidableRel (passLe k rev) := fun u v => by
  unfold passLe
  cases rev
  · exact inferInstanceAs (Decidable (_ ≤ _))
  · exact inferInstanceAs (Decidable (_ ≤ _))

/-- The XYZ mode's sorted decorated list: the three successive stable sorts of
`op_order = [(0, reverse_x), (1, reverse_y), (2, reverse_z)]`. -/
def xyzSV (rx ry rz : Bool) (v : List Pt) : List (Pt × Nat) :=
  (((decorate v).insertionSort (passLe 0 rx)).insertionSort
      (passLe 1 ry)).insertionSort (passLe 2 rz)

/-- The XYZ mode's `Vertices` output (`[v[:3] for v in s_v]`). -/
def xyzVerts (rx ry rz : Bool) (v : List Pt) : List Pt :=
  (xyzSV rx ry rz v).map Prod.fst

/-- The XYZ mode's `Item order` output (`[i[-1] for i in s_v]`). -/
def xyzOrder (rx ry rz : Bool) (v : List Pt) : List Nat :=
  (xyzSV rx ry rz v).map Prod.snd

/-- Integer dot product, modelling `Vector(item[:3]).dot(direction)`. -/
def dot3 (a b : Pt) : Int := a.1 * b.1 + a.2.1 * b.2.1 + a.2.2 * b.2.2

/-- Comparison of the Auto Direction sort: key is the scalar projection of the
point on the direction `d`. -/
def dirLe (d : Pt) (u v : Pt × Nat) : Prop := dot3 u.1 d ≤ dot3 v.1 d

instance dirLeDec (d : Pt) : DecidableRel (dirLe d) := fun _ _ =>
  inferInstanceAs (Decidable (_ ≤ _))

/-- Auto Direction (`ADIR`) stable sort: decorated points ordered by the
projection key.  Modelled from the spec: the direction
`linear_approximation(v).most_similar_line().direction` is computed in
`sverchok.utils.geom`, which is not under `src/`; per the spec it is the
best-fit line direction of the cloud, so it enters the model as an explicit
parameter `d` and the theorems quantify over it. -/
def adirSorted (d : Pt) (v : List Pt) : List (Pt × Nat) :=
  (decorate v).insertionSort (dirLe d)

/-- The sequence traversed by the FIRST consumer of the ADIR `s_v` — the
unconditional `Vertices` comprehension: with `reverse` on, `s_v` is
`reversed(sorted(s_v, key=key))` and this comprehension sees the reversal. -/
def adirSV (d : Pt) (rev : Bool) (v : List Pt) : List (Pt × Nat) :=
  if rev then (adirSorted d v).reverse else adirSorted d v

/-- The ADIR `Vertices` output (`[v[:3] for v in s_v]`). -/
def adirVerts (d : Pt) (rev : Bool) (v : List Pt) : List Pt :=
  (adirSV d rev v).map Prod.fst

/-- The sequence the LATER consumers of the ADIR `s_v` traverse (the
`v_index` dict and the `Item order` comprehension): Python's `reversed()`
returns a one-shot iterator, already exhausted by the `Vertices`
comprehension when `reverse` is on, so they iterate an empty sequence; with
`reverse` off `s_v` is a plain list and is traversed again in full. -/
def adirRest (d : Pt) (rev : Bool) (v : List Pt) : List (Pt × Nat) :=
  if rev then [] else adirSorted d v

/-- The ADIR `Item order` output (`[i[-1] for i in s_v]`, after the
`Vertices` comprehension has consumed `s_v`). -/
def adirOrder (d : Pt) (rev : Bool) (v : List Pt) : List Nat :=
  (adirRest d rev v).map Prod.snd

/-- The comparison the spec's words describe for reversal in Auto Direction
mode: a stable sort by the negated projection key. -/
def negDirLe (d : Pt) (u v : Pt × Nat) : Prop := -dot3 u.1 d ≤ -dot3 v.1 d

instance negDirLeDec (d : Pt) : DecidableRel (negDirLe d) := fun _ _ =>
  inferInstanceAs (Decidable (_ ≤ _))

/-- The spec's reading of reversed Auto Direction: one stable sort by the
negated key (ties keep original relative order). -/
def adirNegSV (d : Pt) (v : List Pt) : List (Pt × Nat) :=
  (decorate v).insertionSort (negDirLe d)

/-- Per-axis key of the spec's `StableMultiKeySorter` reading of XYZ mode:
the coordinate, negated when the axis' reverse flag is set. -/
def specKey (v : List Pt) (k : Nat) (rev : Bool) (i : Nat) : Int :=
  if rev then -coordAt k (lookupPt v i) else coordAt k (lookupPt v i)

/-- The spec-side definition for C4: successive stable sub-sorts of the index
list `0..N-1`, first by the x key, then re-stable-sorting by the y key, then
by the z key, each key independently negated per its reverse flag. -/
def specAxisOrder (rx ry rz : Bool) (v : List Pt) : List Nat :=
  (((List.range v.length).insertionSort
        (fun i j => specKey v 0 rx i ≤ specKey v 0 rx j)).insertionSort
      (fun i j => specKey v 1 ry i ≤ specKey v 1 ry j)).insertionSort
    (fun i j => specKey v 2 rz i ≤ specKey v 2 rz j)

/-! ### Connectivity mode: `find_limits` and `sort_vertices_by_connexions`

Python mutates three parallel arrays `edges_copy = [edges0, edges1, edges_index]`
always popped at the same position, modelled as one list of triples
`(e[0], e[1], original edge index)`.  All Python failure points are kept:
indexing `v_count[e[k]]` or `verts_in[side]` out of range is `IndexError`,
`list.index` on an absent value is `ValueError`, `pop` from an empty list is
`IndexError`. -/

/-- One step of the `v_count` accumulation in `find_limits`:
`v_count[x][0] += 1; v_count[x][1] = side; v_count[x][2] = i`. -/
def bumpVC (vc : List (Nat × Nat × Nat)) (x side i : Nat) : List (Nat × Nat × Nat) :=
  vc.set x ((vc.getD x (0, 0, 0)).1 + 1, side, i)

/-- The `for i, e in enumerate(edges_in)` loop of `find_limits`; Python raises
`IndexError` when an edge endpoint is out of range of `v_count`. -/
def vCountList (n : Nat) : Nat → List (Nat × Nat × Nat) → List Edge →
    Except String (List (Nat × Nat × Nat))
  | _, vc, [] => .ok vc
  | i, vc, e :: es =>
    if e.1 < n ∧ e.2 < n then
      vCountList n (i + 1) (bumpVC (bumpVC vc e.1 0 i) e.2 1 i) es
    else .error "IndexError"

/-- `find_limits(verts_in, edges_in)`: all vertices of degree exactly 1, in
ascending vertex-index order, each as `(vertex, side, edge index)` where side
and edge index come from the last edge that touched the vertex. -/
def find_limits (vertsIn : List Pt) (edgesIn : List Edge) : Except String (List Limit) :=
  match vCountList vertsIn.length 0 (List.replicate vertsIn.length (0, 0, 0)) edgesIn with
  | .error s => .error s
  | .ok vc =>
    .ok ((List.range vertsIn.length).filterMap fun i =>
      let v := vc.getD i (0, 0, 0)
      if v.1 = 1 then some (i, v.2.1, v.2.2) else none)

/-- `pop_lower_level(edges_copy, k)` on the fused triple list; `IndexError`
when the position is out of range (Python's `list.pop`). -/
def popAt (l : List α) (k : Nat) : Except String (List α) :=
  if k < l.length then .ok (l.eraseIdx k) else .error "IndexError"

/-- Search `v_index in edges_copy[0]`: find the first remaining edge whose
first endpoint is `v`, remove it, and return the shrunk list and its original
edge index (`k = edges_copy[0].index(v); ed_index = edges_copy[2][k]; pop k`). -/
def findContinue0 (v : Nat) : List (Nat × Nat × Nat) →
    Option (List (Nat × Nat × Nat) × Nat)
  | [] => none
  | t :: ts =>
    if t.1 = v then some (ts, t.2.2)
    else
      match findContinue0 v ts with
      | some (c, ei) => some (t :: c, ei)
      | none => none

/-- Same search on the second endpoints (`edges_copy[1]`). -/
def findContinue1 (v : Nat) : List (Nat × Nat × Nat) →
    Option (List (Nat × Nat × Nat) × Nat)
  | [] => none
  | t :: ts =>
    if t.2.1 = v then some (ts, t.2.2)
    else
      match findContinue1 v ts with
      | some (c, ei) => some (t :: c, ei)
      | none => none

/-- The dead-end scan `for lim in limits: if not lim[0] in index: ...; break`:
the first limit whose vertex has not been visited, if any. -/
def findRestart (limits : List Limit) (index : List Nat) : Option Limit :=
  limits.find? fun lm => !decide (lm.1 ∈ index)

/-- Remove the first triple whose first endpoint is `v`, if any. -/
def removeByFst (v : Nat) : List (Nat × Nat × Nat) → Option (List (Nat × Nat × Nat))
  | [] => none
  | t :: ts =>
    if t.1 = v then some ts
    else
      match removeByFst v ts with
      | some c => some (t :: c)
      | none => none

/-- Remove the first triple whose second endpoint is `v`, if any. -/
def removeBySnd (v : Nat) : List (Nat × Nat × Nat) → Option (List (Nat × Nat × Nat))
  | [] => none
  | t :: ts =>
    if t.2.1 = v then some ts
    else
      match removeBySnd v ts with
      | some c => some (t :: c)
      | none => none

/-- `k = edges_copy[0].index(lim[0]) if lim[0] in edges_copy[0] else
edges_copy[1].index(lim[0]); pop_lower_level(edges_copy, k)` — the second
`.index` raises `ValueError` when the vertex is in neither column. -/
def removeLimVertex (v : Nat) (c : List (Nat × Nat × Nat)) :
    Except String (List (Nat × Nat × Nat)) :=
  match removeByFst v c with
  | some c2 => .ok c2
  | none =>
    match removeBySnd v c with
    | some c2 => .ok c2
    | none => .error "ValueError"

/-- Emitting one side of the current edge: if the vertex value is already in
`verts_out` only its position is recorded in `ed`; otherwise the value is
appended, its (new) position recorded, and the original index appended to
`index`.  Membership and position are by coordinate VALUE, as in the source. -/
def emitSide (vertsIn : List Pt) (side : Nat) (vo : List Pt) (idx ed : List Nat) :
    Except String (List Pt × List Nat × List Nat) :=
  match vertsIn[side]? with
  | none => .error "IndexError"
  | some p =>
    if p ∈ vo then .ok (vo, idx, ed ++ [posOf p vo])
    else .ok (vo ++ [p], idx ++ [side], ed ++ [posOf p (vo ++ [p])])

/-- The `for side in e` emission loop over the oriented edge `e`. -/
def emitEdge (vertsIn : List Pt) (e : Edge) (vo : List Pt) (idx : List Nat) :
    Except String (List Pt × List Nat × List Nat) :=
  match emitSide vertsIn e.1 vo idx [] with
  | .error s => .error s
  | .ok (vo1, idx1, ed1) =>
    match emitSide vertsIn e.2 vo1 idx1 ed1 with
    | .error s => .error s
    | .ok (vo2, idx2, ed2) => .ok (vo2, idx2, ed2)

/-- The mutable state of the traversal loop of `sort_vertices_by_connexions`. -/
structure WalkState where
  copy : List (Nat × Nat × Nat)
  edIndex : Nat
  orSide : Nat
  vertsOut : List Pt
  edgesOut : List (List Nat)
  index : List Nat

/-- `e = edges_in[ed_index]; if or_side == 1: e = [e[1], e[0]]`. -/
def orient (e : Edge) (orSide : Nat) : Edge := if orSide = 1 then (e.2, e.1) else e

/-- One iteration of the `for j in range(edges_len)` loop: emit the current
edge, then look for a continuation at the edge's head; on a dead end with
edges left, restart from `edges_copy` position 0 (no limit detection) or from
the first unvisited limit — when every remaining limit is already visited the
scan finds nothing and the state is left unchanged, exactly as the Python
`for ... break` loop falls through (`ed_index` keeps its old value).
The Python guard `ed_index == ed_index_old` is equivalent to "no continuation
was found": the current edge was removed from `edges_copy` when it was
selected and original edge indices are distinct, so a found continuation
always changes `ed_index`. -/
def walkStep (vertsIn : List Pt) (edgesIn : List Edge) (limiting : Bool)
    (limits : List Limit) (s : WalkState) : Except String WalkState :=
  match emitEdge vertsIn (orient (edgesIn.getD s.edIndex (0, 0)) s.orSide)
      s.vertsOut s.index with
  | .error msg => .error msg
  | .ok (vo, idx, ed) =>
    match findContinue0 (orient (edgesIn.getD s.edIndex (0, 0)) s.orSide).2 s.copy with
    | some (c, ei) => .ok ⟨c, ei, 0, vo, s.edgesOut ++ [ed], idx⟩
    | none =>
      match findContinue1 (orient (edgesIn.getD s.edIndex (0, 0)) s.orSide).2 s.copy with
      | some (c, ei) => .ok ⟨c, ei, 1, vo, s.edgesOut ++ [ed], idx⟩
      | none =>
        if 0 < s.copy.length then
          if limiting then
            match findRestart limits idx with
            | none => .ok ⟨s.copy, s.edIndex, s.orSide, vo, s.edgesOut ++ [ed], idx⟩
            | some lm =>
              match removeLimVertex lm.1 s.copy with
              | .error msg => .error msg
              | .ok c => .ok ⟨c, lm.2.2, lm.2.1, vo, s.edgesOut ++ [ed], idx⟩
          else
            match s.copy with
            | t :: ts => .ok ⟨ts, t.2.2, 0, vo, s.edgesOut ++ [ed], idx⟩
            | [] => .error "IndexError"
        else .ok ⟨s.copy, s.edIndex, s.orSide, vo, s.edgesOut ++ [ed], idx⟩

/-- The traversal loop, run `edges_len` times. -/
def walkLoop (vertsIn : List Pt) (edgesIn : List Edge) (limiting : Bool)
    (limits : List Limit) : Nat → WalkState → Except String WalkState
  | 0, s => .ok s
  | n + 1, s =>
    match walkStep vertsIn edgesIn limiting limits s with
    | .error msg => .error msg
    | .ok s2 => walkLoop vertsIn edgesIn limiting limits n s2

/-- The final `# add unconnected vertices` loop: scan `verts_in` with its
positions and append every vertex VALUE not yet present in `verts_out`. -/
def addUnconnected (vertsIn : List Pt) : List Pt → Nat → List Pt → List Nat →
    List Pt × List Nat
  | [], _, vo, idx => (vo, idx)
  | p :: ps, i, vo, idx =>
    if p ∈ vo then addUnconnected vertsIn ps (i + 1) vo idx
    else addUnconnected vertsIn ps (i + 1) (vo ++ [p]) (idx ++ [i])

/-- Choice of the start edge: the first limit (consumed from the limit list)
when limit detection is on and limits exist, otherwise edge 0 in direction 0. -/
def startChoice (vertsIn : List Pt) (edgesIn : List Edge) (limitMode : Bool) :
    Except String (Bool × List Limit × Nat × Nat) :=
  if limitMode then
    match find_limits vertsIn edgesIn with
    | .error s => .error s
    | .ok limits =>
      if 0 < limits.length then
        .ok (true, limits.tail, (limits.headD (0, 0, 0)).2.2, (limits.headD (0, 0, 0)).2.1)
      else .ok (false, [], 0, 0)
  else .ok (false, [], 0, 0)

/-- The initial `edges_copy = [edges0, edges1, edges_index]` fused into a list
of triples `(e[0], e[1], j)` with `j` running over `range(edges_len)`. -/
def copyFrom (k : Nat) : List Edge → List (Nat × Nat × Nat)
  | [] => []
  | e :: es => (e.1, e.2, k) :: copyFrom (k + 1) es

/-- `sort_vertices_by_connexions(verts_in, edges_in, limit_mode)`, returning
`(verts_out, edges_out, index)`. -/
def sort_vertices_by_connexions (vertsIn : List Pt) (edgesIn : List Edge)
    (limitMode : Bool) : Except String (List Pt × List (List Nat) × List Nat) :=
  match startChoice vertsIn edgesIn limitMode with
  | .error s => .error s
  | .ok (limiting, limits, ei0, os0) =>
    match popAt (copyFrom 0 edgesIn) ei0 with
    | .error s => .error s
    | .ok copy0 =>
      match walkLoop vertsIn edgesIn limiting limits edgesIn.length
          ⟨copy0, ei0, os0, [], [], []⟩ with
      | .error s => .error s
      | .ok s =>
        if s.vertsOut.length ≠ vertsIn.length then
          .ok ((addUnconnected vertsIn vertsIn 0 s.vertsOut s.index).1, s.edgesOut,
            (addUnconnected vertsIn vertsIn 0 s.vertsOut s.index).2)
        else .ok (s.vertsOut, s.edgesOut, s.index)

/-! ### Index remapping and the CONNEX branch of `SvVertSortNode.process` -/

/-- Exception-aware list map: a Python list comprehension whose element
computation may raise — the first raise aborts the whole comprehension, so no
partial result is ever produced. -/
def mapE (f : α → Except String β) : List α → Except String (List β)
  | [] => .ok []
  | a :: as =>
    match f a with
    | .error s => .error s
    | .ok b =>
      match mapE f as with
      | .error s => .error s
      | .ok bs => .ok (b :: bs)

/-- First position in the list satisfying the test, if any. -/
def posOfQ (p : α → Bool) : List α → Option Nat
  | [] => none
  | a :: l => if p a then some 0 else (posOfQ p l).map (· + 1)

/-- XYZ-mode dictionary lookup `v_index[n]` where
`v_index = {item[-1]: j for j, item in enumerate(s_v)}`: the decorated
indices are distinct, so the dictionary maps `n` to the first (only) position
holding it; a miss is Python's `KeyError`, the spec's `UnknownIndexError`. -/
def xyzVIndex (sv : List (Pt × Nat)) (n : Nat) : Except String Nat :=
  match posOfQ (fun it => it.2 == n) sv with
  | some j => .ok j
  | none => .error "UnknownIndexError"

/-- The XYZ-mode PolyEdge remap
`[list(map(lambda n: v_index[n], pe)) for pe in p]`. -/
def xyzRemap (rx ry rz : Bool) (v : List Pt) (p : List (List Nat)) :
    Except String (List (List Nat)) :=
  mapE (fun pe => mapE (xyzVIndex (xyzSV rx ry rz v)) pe) p

/-- CONNEX-mode `index_new.index(i)`: first position of `i` in the trace;
`ValueError` (the spec's `UnknownIndexError`) when absent. -/
def connexPos (indexNew : List Nat) (i : Nat) : Except String Nat :=
  match posOfQ (fun j => j == i) indexNew with
  | some j => .ok j
  | none => .error "UnknownIndexError"

/-- The CONNEX-mode polygon remap loop (`for pol in pols[0]: ...
new_pol.append(index_new.index(i))`). -/
def connexRemapPols (indexNew : List Nat) (pols : List (List Nat)) :
    Except String (List (List Nat)) :=
  mapE (fun pol => mapE (connexPos indexNew) pol) pols

/-- Modelled from the spec: `polygons_to_edges` lives in
`sverchok.utils.sv_mesh_utils`, which is not under `src/`.  Per the spec's
data model a face is an ordered sequence of indices whose boundary edges join
consecutive entries, wrapping from the last back to the first. -/
def polygonEdges (pol : List Nat) : List Edge :=
  match pol with
  | [] => []
  | a :: _ => pol.zip (pol.tail ++ [a])

/-- Has this unordered edge already been collected? -/
def edgeSeen (e : Edge) (l : List Edge) : Bool :=
  l.any fun f => f == e || f == (e.2, e.1)

def uniqueEdgesAux (acc : List Edge) : List Edge → List Edge
  | [] => []
  | e :: es =>
    if edgeSeen e acc then uniqueEdgesAux acc es
    else e :: uniqueEdgesAux (e :: acc) es

/-- Modelled from the spec: `polygons_to_edges([p], True)[0]` — every face's
boundary edges, each unordered pair kept once (`unique_edges=True`). -/
def polygonsToEdgesUnique (pols : List (List Nat)) : List Edge :=
  uniqueEdgesAux [] (pols.map polygonEdges).flatten

/-- Reading a Python edge `[a, b, ...]` at `j[0]` and `j[1]`;
`IndexError` on a too-short list. -/
def edgesOfLists : List (List Nat) → Except String (List Edge)
  | [] => .ok []
  | l :: ls =>
    match l with
    | a :: b :: _ =>
      match edgesOfLists ls with
      | .error s => .error s
      | .ok es => .ok ((a, b) :: es)
    | _ => .error "IndexError"

/-- One object of the CONNEX branch of `SvVertSortNode.process`: when the
first face has more than 2 indices the faces are converted to unique edges
(spec-modelled `polygons_to_edges`), the connectivity sort runs, and every
face is re-expressed through `index_new.index(i)`.  Python wraps the
remapped face list once more (`pol_edge_new = [new_pols]`); the model returns
the remapped face list itself, the wrapping being presentation only.
An empty PolyEdge list hits Python's `p[0]` and raises `IndexError`. -/
def connexProcessOne (v : List Pt) (p : List (List Nat)) (limitMode : Bool) :
    Except String (List Pt × List (List Nat) × List Nat) :=
  match p with
  | [] => .error "IndexError"
  | pe0 :: _ =>
    if 2 < pe0.length then
      match sort_vertices_by_connexions v (polygonsToEdgesUnique p) limitMode with
      | .error s => .error s
      | .ok r =>
        match connexRemapPols r.2.2 p with
        | .error s => .error s
        | .ok newPols => .ok (r.1, newPols, r.2.2)
    else
      match edgesOfLists p with
      | .error s => .error s
      | .ok es => sort_vertices_by_connexions v es limitMode

/-! ### Predicates used by the theorems -/

/-- After a stable sort by the total preorder `le`, tied elements keep the
incoming order `R`: the sorted list is pairwise ordered by this combination. -/
def combineRel (le R : α → α → Prop) (a b : α) : Prop := le a b ∧ (le b a → R a b)

/-- Strict order of the decoration indices (the original positions). -/
def idxLt (u v : Pt × Nat) : Prop := u.2 < v.2

/-- The order established by the three successive XYZ passes: primarily the z
pass (the last sort wins), ties resolved by the y pass, then the x pass, and
finally by original position (stability). -/
def xyzRel (rx ry rz : Bool) : (Pt × Nat) → (Pt × Nat) → Prop :=
  combineRel (passLe 2 rz) (combineRel (passLe 1 ry) (combineRel (passLe 0 rx) idxLt))

instance (d : Pt) : IsTotal (Pt × Nat) (dirLe d) :=
  ⟨fun a b => Int.le_total (dot3 a.1 d) (dot3 b.1 d)⟩

instance (d : Pt) : IsTrans (Pt × Nat) (dirLe d) :=
  ⟨fun _ _ _ h1 h2 => le_trans h1 h2⟩

instance (d : Pt) : IsTotal (Pt × Nat) (negDirLe d) :=
  ⟨fun a b => Int.le_total (-dot3 a.1 d) (-dot3 b.1 d)⟩

instance (d : Pt) : IsTrans (Pt × Nat) (negDirLe d) :=
  ⟨fun _ _ _ h1 h2 => le_trans h1 h2⟩

/-- Is `j` a vertex touched by no edge at all (degree 0)? -/
def untouchedB (edgesIn : List Edge) (j : Nat) : Bool :=
  decide (∀ e ∈ edgesIn, e.1 ≠ j ∧ e.2 ≠ j)

/-- The computation returned a value (did not model a Python exception). -/
def okE (x : Except String α) : Prop := ∃ a, x = .ok a

/-- Distinct positions hold distinct coordinate values. -/
def PtInj (v : List Pt) : Prop :=
  ∀ i j, i < v.length → j < v.length → lookupPt v i = lookupPt v j → i = j

/-- The traversal-loop invariant of `sort_vertices_by_connexions`:
`verts_out` lists the coordinates of the traced original indices in trace
order without duplicates, every traced index is in range and touched by some
edge, every reindexed-edge entry points below the current `verts_out` length,
the current edge index is in range and so is the original index of every
remaining edge in `edges_copy`. -/
def WalkInv (vIn : List Pt) (eIn : List Edge) (s : WalkState) : Prop :=
  s.vertsOut = s.index.map (lookupPt vIn) ∧
  s.vertsOut.Nodup ∧
  (∀ i ∈ s.index, i < vIn.length) ∧
  (∀ i ∈ s.index, ∃ e ∈ eIn, i = e.1 ∨ i = e.2) ∧
  (∀ ed ∈ s.edgesOut, ∀ k ∈ ed, k < s.vertsOut.length) ∧
  s.edIndex < eIn.length ∧
  (∀ t ∈ s.copy, t.2.2 < eIn.length)

/-! ## Theorems

### Stability theory for successive stable sorts -/

theorem pairwise_orderedInsert_combine {le R : α → α → Prop} [DecidableRel le]
    (tot : ∀ a b, le a b ∨ le b a) (tr : ∀ a b c, le a b → le b c → le a c) (a : α) :
    ∀ l : List α, l.Pairwise (combineRel le R) → (∀ b ∈ l, R a b) →
      (l.orderedInsert le a).Pairwise (combineRel le R)
  | [], _, _ => List.pairwise_singleton _ _
  | b :: l, hl, ha => by
    rw [List.orderedInsert]
    by_cases hab : le a b
    · rw [if_pos hab]
      refine List.Pairwise.cons ?_ hl
      intro c hc
      rcases List.mem_cons.1 hc with rfl | hcl
      · exact ⟨hab, fun _ => ha c (List.mem_cons_self _ _)⟩
      · have hbc := List.rel_of_pairwise_cons hl hcl
        exact ⟨tr a b c hab hbc.1, fun _ => ha c (List.mem_cons_of_mem _ hcl)⟩
    · rw [if_neg hab]
      have hba : le b a := (tot a b).resolve_left hab
      refine List.Pairwise.cons ?_
        (pairwise_orderedInsert_combine tot tr a l hl.of_cons fun c hc =>
          ha c (List.mem_cons_of_mem _ hc))
      intro c hc
      rcases (List.mem_orderedInsert le).1 hc with rfl | hcl
      · exact ⟨hba, fun h2 => absurd h2 hab⟩
      · exact List.rel_of_pairwise_cons hl hcl

theorem pairwise_insertionSort_combine {le R : α → α → Prop} [DecidableRel le]
    (tot : ∀ a b, le a b ∨ le b a) (tr : ∀ a b c, le a b → le b c → le a c) :
    ∀ l : List α, l.Pairwise R → (l.insertionSort le).Pairwise (combineRel le R)
  | [], _ => by simp [List.insertionSort]
  | a :: l, h => by
    rw [List.insertionSort]
    exact pairwise_orderedInsert_combine tot tr a _
      (pairwise_insertionSort_combine tot tr l h.of_cons)
      (fun b hb => List.rel_of_pairwise_cons h ((List.mem_insertionSort le).1 hb))

theorem passLe_total (k : Nat) (rev : Bool) (u v : Pt × Nat) :
    passLe k rev u v ∨ passLe k rev v u := by
  unfold passLe; cases rev <;> simp <;> exact Int.le_total _ _

theorem passLe_trans (k : Nat) (rev : Bool) (u v w : Pt × Nat) :
    passLe k rev u v → passLe k rev v w → passLe k rev u w := by
  unfold passLe
  cases rev
  · simp only [if_neg Bool.false_ne_true]
    exact fun h1 h2 => le_trans h1 h2
  · simp only [if_pos rfl]
    exact fun h1 h2 => le_trans h2 h1

theorem combineRel_antisymm {le R : α → α → Prop}
    (h : ∀ a b, R a b → R b a → a = b) :
    ∀ a b, combineRel le R a b → combineRel le R b a → a = b :=
  fun a b hab hba => h a b (hab.2 hba.1) (hba.2 hab.1)

theorem idxLt_antisymm (a b : Pt × Nat) : idxLt a b → idxLt b a → a = b :=
  fun h1 h2 => absurd (lt_trans h1 h2) (lt_irrefl _)

theorem xyzRel_antisymm (rx ry rz : Bool) (a b : Pt × Nat) :
    xyzRel rx ry rz a b → xyzRel rx ry rz b a → a = b :=
  combineRel_antisymm (combineRel_antisymm (combineRel_antisymm idxLt_antisymm)) a b

/-! ### Decoration lemmas -/

theorem decorateFrom_map_fst : ∀ (v : List Pt) (k : Nat),
    (decorateFrom k v).map Prod.fst = v
  | [], _ => rfl
  | p :: ps, k => by
    rw [decorateFrom, List.map_cons, decorateFrom_map_fst ps (k + 1)]

theorem decorateFrom_map_snd : ∀ (v : List Pt) (k : Nat),
    (decorateFrom k v).map Prod.snd = List.range' k v.length
  | [], _ => rfl
  | p :: ps, k => by
    rw [decorateFrom, List.map_cons, decorateFrom_map_snd ps (k + 1), List.length_cons,
      List.range'_succ]

theorem decorateFrom_length : ∀ (v : List Pt) (k : Nat),
    (decorateFrom k v).length = v.length
  | [], _ => rfl
  | p :: ps, k => by rw [decorateFrom, List.length_cons, decorateFrom_length ps (k + 1),
      List.length_cons]

theorem mem_decorateFrom : ∀ (v : List Pt) (k : Nat) (u : Pt × Nat),
    u ∈ decorateFrom k v → u.1 ∈ v ∧ k ≤ u.2
  | [], _, _, h => absurd h (List.not_mem_nil _)
  | p :: ps, k, u, h => by
    rcases List.mem_cons.1 h with rfl | h2
    · exact ⟨List.mem_cons_self _ _, le_refl _⟩
    · have := mem_decorateFrom ps (k + 1) u h2
      exact ⟨List.mem_cons_of_mem _ this.1, le_trans (Nat.le_succ k) this.2⟩

theorem pairwise_snd_decorateFrom : ∀ (v : List Pt) (k : Nat),
    (decorateFrom k v).Pairwise idxLt
  | [], _ => List.Pairwise.nil
  | p :: ps, k => by
    rw [decorateFrom]
    refine List.Pairwise.cons ?_ (pairwise_snd_decorateFrom ps (k + 1))
    intro u hu
    exact lt_of_lt_of_le (Nat.lt_succ_self k) (mem_decorateFrom ps (k + 1) u hu).2

theorem pairwise_fst_decorateFrom {S : Pt → Pt → Prop} : ∀ (v : List Pt) (k : Nat),
    v.Pairwise S → (decorateFrom k v).Pairwise (fun a b => S a.1 b.1)
  | [], _, _ => List.Pairwise.nil
  | p :: ps, k, h => by
    rw [decorateFrom]
    refine List.Pairwise.cons ?_ (pairwise_fst_decorateFrom ps (k + 1) h.of_cons)
    intro u hu
    exact List.rel_of_pairwise_cons h (mem_decorateFrom ps (k + 1) u hu).1

theorem decorateFrom_getElem? : ∀ (v : List Pt) (k i : Nat),
    (decorateFrom k v)[i]? = v[i]?.map fun p => (p, k + i)
  | [], _, i => by simp [decorateFrom]
  | p :: ps, k, 0 => by simp [decorateFrom]
  | p :: ps, k, i + 1 => by
    rw [decorateFrom, List.getElem?_cons_succ, List.getElem?_cons_succ,
      decorateFrom_getElem? ps (k + 1) i]
    have h : k + 1 + i = k + (i + 1) := by omega
    rw [h]

/-! ### The XYZ passes: order established, permutation, idempotence -/

theorem xyzSV_pairwise (rx ry rz : Bool) (v : List Pt) :
    (xyzSV rx ry rz v).Pairwise (xyzRel rx ry rz) :=
  pairwise_insertionSort_combine (passLe_total 2 rz) (passLe_trans 2 rz) _
    (pairwise_insertionSort_combine (passLe_total 1 ry) (passLe_trans 1 ry) _
      (pairwise_insertionSort_combine (passLe_total 0 rx) (passLe_trans 0 rx) _
        (pairwise_snd_decorateFrom v 0)))

theorem xyzSV_perm_decorate (rx ry rz : Bool) (v : List Pt) :
    (xyzSV rx ry rz v).Perm (decorate v) :=
  (List.perm_insertionSort _ _).trans
    ((List.perm_insertionSort _ _).trans (List.perm_insertionSort _ _))

theorem xyzRel_snd_mono {rx ry rz : Bool} {p q : Pt} {a b a2 b2 : Nat}
    (h : xyzRel rx ry rz (p, a) (q, b)) (h2 : a2 < b2) :
    xyzRel rx ry rz (p, a2) (q, b2) :=
  ⟨h.1, fun hz => ⟨(h.2 hz).1, fun hy => ⟨((h.2 hz).2 hy).1, fun _ => h2⟩⟩⟩

theorem pairwise_decorateFrom_of_pairwise {S : Pt × Nat → Pt × Nat → Prop}
    (hmono : ∀ p q a b a2 b2, S (p, a) (q, b) → a2 < b2 → S (p, a2) (q, b2)) :
    ∀ (l : List (Pt × Nat)) (k : Nat), l.Pairwise S →
      (decorateFrom k (l.map Prod.fst)).Pairwise S
  | [], _, _ => List.Pairwise.nil
  | u :: l, k, h => by
    rw [List.map_cons, decorateFrom]
    refine List.Pairwise.cons ?_ (pairwise_decorateFrom_of_pairwise hmono l (k + 1) h.of_cons)
    rintro ⟨w1, w2⟩ hw
    obtain ⟨hw1, hw2⟩ := mem_decorateFrom _ _ _ hw
    obtain ⟨⟨x1, x2⟩, hx, hfx⟩ := List.mem_map.1 hw1
    obtain ⟨u1, u2⟩ := u
    have hfx2 : x1 = w1 := hfx
    subst hfx2
    exact hmono u1 x1 u2 x2 k w2 (List.rel_of_pairwise_cons h hx)
      (lt_of_lt_of_le (Nat.lt_succ_self k) hw2)

theorem xyzSV_verts_fixed (rx ry rz : Bool) (v : List Pt) :
    xyzSV rx ry rz (xyzVerts rx ry rz v) = decorate (xyzVerts rx ry rz v) := by
  haveI : IsAntisymm (Pt × Nat) (xyzRel rx ry rz) := ⟨xyzRel_antisymm rx ry rz⟩
  refine List.eq_of_perm_of_sorted (xyzSV_perm_decorate rx ry rz _) (xyzSV_pairwise rx ry rz _) ?_
  exact pairwise_decorateFrom_of_pairwise
    (fun _ _ _ _ _ _ h h2 => xyzRel_snd_mono h h2) _ 0 (xyzSV_pairwise rx ry rz v)

theorem decorate_map_snd (v : List Pt) :
    (decorate v).map Prod.snd = List.range v.length := by
  rw [decorate, decorateFrom_map_snd, List.range_eq_range']

theorem xyzVerts_length (rx ry rz : Bool) (v : List Pt) :
    (xyzVerts rx ry rz v).length = v.length := by
  unfold xyzVerts xyzSV
  rw [List.length_map, List.length_insertionSort, List.length_insertionSort,
    List.length_insertionSort, decorate, decorateFrom_length]

/-! ### Uniqueness of sorted permutations with antisymmetry local to the list -/

theorem eq_of_perm_of_sorted_local {r : α → α → Prop} :
    ∀ (l₁ l₂ : List α), l₁.Perm l₂ → l₁.Pairwise r → l₂.Pairwise r →
      (∀ a ∈ l₁, ∀ b ∈ l₁, r a b → r b a → a = b) → l₁ = l₂
  | [], _, hp, _, _, _ => hp.nil_eq
  | a :: t₁, l₂, hp, hs₁, hs₂, hanti => by
    have ha₂ : a ∈ l₂ := hp.mem_iff.1 (List.mem_cons_self _ _)
    cases l₂ with
    | nil => exact absurd ha₂ (List.not_mem_nil _)
    | cons b t₂ =>
      have hb₁ : b ∈ a :: t₁ := hp.mem_iff.2 (List.mem_cons_self _ _)
      have hab : a = b := by
        rcases List.mem_cons.1 ha₂ with h1 | ha₂t
        · exact h1
        · rcases List.mem_cons.1 hb₁ with h2 | hb₁t
          · exact h2.symm
          · exact hanti a (List.mem_cons_self _ _) b (List.mem_cons_of_mem _ hb₁t)
              (List.rel_of_pairwise_cons hs₁ hb₁t) (List.rel_of_pairwise_cons hs₂ ha₂t)
      subst hab
      rw [eq_of_perm_of_sorted_local t₁ t₂ hp.cons_inv hs₁.of_cons hs₂.of_cons
        (fun x hx y hy => hanti x (List.mem_cons_of_mem _ hx) y (List.mem_cons_of_mem _ hy))]

/-! ### Auto Direction: reversal versus stable sort by the negated key -/

theorem adir_reverse_eq_negSort (d : Pt) (v : List Pt)
    (hd : v.Pairwise fun p q => dot3 p d ≠ dot3 q d) :
    adirSV d true v = adirNegSV d v := by
  unfold adirSV adirSorted adirNegSV
  simp only [if_pos rfl]
  have hperm : ((decorate v).insertionSort (dirLe d)).reverse.Perm
      ((decorate v).insertionSort (negDirLe d)) :=
    ((List.reverse_perm _).trans (List.perm_insertionSort _ _)).trans
      (List.perm_insertionSort _ _).symm
  have hs1 : ((decorate v).insertionSort (dirLe d)).reverse.Pairwise
      (fun u w : Pt × Nat => dot3 w.1 d ≤ dot3 u.1 d) :=
    List.pairwise_reverse.2 (List.sorted_insertionSort (dirLe d) (decorate v))
  have hs2 : ((decorate v).insertionSort (negDirLe d)).Pairwise
      (fun u w : Pt × Nat => dot3 w.1 d ≤ dot3 u.1 d) :=
    (List.sorted_insertionSort (negDirLe d) (decorate v)).imp
      (fun h => neg_le_neg_iff.1 h)
  have hdec : (decorate v).Pairwise (fun u w : Pt × Nat => dot3 u.1 d ≠ dot3 w.1 d) :=
    pairwise_fst_decorateFrom v 0 hd
  refine eq_of_perm_of_sorted_local _ _ hperm hs1 hs2 ?_
  intro a ha b hb hab hba
  have ha2 : a ∈ decorate v := (List.mem_insertionSort (dirLe d)).1 (List.mem_reverse.1 ha)
  have hb2 : b ∈ decorate v := (List.mem_insertionSort (dirLe d)).1 (List.mem_reverse.1 hb)
  by_contra hne
  have hsym : Symmetric (fun u w : Pt × Nat => dot3 u.1 d ≠ dot3 w.1 d) :=
    fun _ _ h heq => h heq.symm
  exact hdec.forall hsym ha2 hb2 hne (le_antisymm hba hab)

/-! ### The spec's index-level successive stable sorts agree with the code -/

theorem decorate_eq_range_map (v : List Pt) :
    decorate v = (List.range v.length).map fun i => (lookupPt v i, i) := by
  apply List.ext_getElem?
  intro n
  rw [decorate, decorateFrom_getElem?, List.getElem?_map]
  by_cases h : n < v.length
  · rw [List.getElem?_range h, List.getElem?_eq_getElem h]
    show some (v[n], 0 + n) = some (lookupPt v n, n)
    rw [Nat.zero_add, lookupPt, List.getD_eq_getElem v default h]
  · rw [List.getElem?_eq_none (le_of_not_lt h), List.getElem?_eq_none]
    · rfl
    · rw [List.length_range]; exact le_of_not_lt h

theorem specKey_le_iff (v : List Pt) (k : Nat) (rev : Bool) (a b : Nat) :
    (specKey v k rev a ≤ specKey v k rev b) ↔
      passLe k rev (lookupPt v a, a) (lookupPt v b, b) := by
  unfold specKey passLe
  cases rev
  · simp
  · simp only [if_pos]
    exact neg_le_neg_iff

theorem specAxisOrder_eq_xyzOrder (rx ry rz : Bool) (v : List Pt) :
    specAxisOrder rx ry rz v = xyzOrder rx ry rz v := by
  unfold specAxisOrder xyzOrder xyzSV
  have h1 : ((List.range v.length).insertionSort
        (fun i j => specKey v 0 rx i ≤ specKey v 0 rx j)).map
          (fun i => (lookupPt v i, i)) =
      (decorate v).insertionSort (passLe 0 rx) := by
    rw [List.map_insertionSort (fun i j => specKey v 0 rx i ≤ specKey v 0 rx j)
      (passLe 0 rx) (fun i => (lookupPt v i, i)) (List.range v.length)
      (fun a _ b _ => specKey_le_iff v 0 rx a b), ← decorate_eq_range_map]
  have h2 : (((List.range v.length).insertionSort
        (fun i j => specKey v 0 rx i ≤ specKey v 0 rx j)).insertionSort
          (fun i j => specKey v 1 ry i ≤ specKey v 1 ry j)).map
            (fun i => (lookupPt v i, i)) =
      ((decorate v).insertionSort (passLe 0 rx)).insertionSort (passLe 1 ry) := by
    rw [List.map_insertionSort (fun i j => specKey v 1 ry i ≤ specKey v 1 ry j)
      (passLe 1 ry) (fun i => (lookupPt v i, i)) _
      (fun a _ b _ => specKey_le_iff v 1 ry a b), h1]
  have h3 : ((((List.range v.length).insertionSort
        (fun i j => specKey v 0 rx i ≤ specKey v 0 rx j)).insertionSort
          (fun i j => specKey v 1 ry i ≤ specKey v 1 ry j)).insertionSort
            (fun i j => specKey v 2 rz i ≤ specKey v 2 rz j)).map
              (fun i => (lookupPt v i, i)) =
      (((decorate v).insertionSort (passLe 0 rx)).insertionSort
          (passLe 1 ry)).insertionSort (passLe 2 rz) := by
    rw [List.map_insertionSort (fun i j => specKey v 2 rz i ≤ specKey v 2 rz j)
      (passLe 2 rz) (fun i => (lookupPt v i, i)) _
      (fun a _ b _ => specKey_le_iff v 2 rz a b), h2]
  rw [← h3, List.map_map]
  have hsg : (Prod.snd ∘ fun i => (lookupPt v i, i)) = id := funext fun _ => rfl
  rw [hsg, List.map_id]

/-! ### Every sorting mode emits a permutation of the original indices -/

theorem xyzOrder_perm_range (rx ry rz : Bool) (v : List Pt) :
    (xyzOrder rx ry rz v).Perm (List.range v.length) := by
  unfold xyzOrder
  have h := (xyzSV_perm_decorate rx ry rz v).map Prod.snd
  rw [decorate_map_snd] at h
  exact h

theorem adirSV_perm_decorate (d : Pt) (rev : Bool) (v : List Pt) :
    (adirSV d rev v).Perm (decorate v) := by
  unfold adirSV adirSorted
  cases rev
  · exact List.perm_insertionSort _ _
  · exact (List.reverse_perm _).trans (List.perm_insertionSort _ _)

theorem adirOrder_false_perm_range (d : Pt) (v : List Pt) :
    (adirOrder d false v).Perm (List.range v.length) := by
  unfold adirOrder adirRest adirSorted
  have h := (List.perm_insertionSort (dirLe d) (decorate v)).map Prod.snd
  rw [decorate_map_snd] at h
  exact h

theorem adirOrder_true_nil (d : Pt) (v : List Pt) : adirOrder d true v = [] := rfl

/-! ### Connectivity traversal: emission lemmas -/

theorem posOf_lt_length [DecidableEq α] (a : α) :
    ∀ l : List α, a ∈ l → posOf a l < l.length
  | b :: l, h => by
    rw [posOf]
    by_cases hb : b = a
    · rw [if_pos hb]; exact Nat.succ_pos _
    · rw [if_neg hb, List.length_cons]
      have : a ∈ l := by
        rcases List.mem_cons.1 h with h1 | h1
        · exact absurd h1.symm hb
        · exact h1
      exact Nat.succ_lt_succ (posOf_lt_length a l this)

theorem posOf_append_not_mem [DecidableEq α] (a : α) :
    ∀ l : List α, a ∉ l → posOf a (l ++ [a]) = l.length
  | [], _ => by simp [posOf]
  | b :: l, h => by
    rw [List.cons_append, posOf, if_neg, List.length_cons,
      posOf_append_not_mem a l (fun hm => h (List.mem_cons_of_mem _ hm))]
    intro hb
    exact h (hb ▸ List.mem_cons_self _ _)

theorem emitSide_inv {vIn : List Pt} {side : Nat} {vo : List Pt} {idx ed : List Nat}
    {vo2 : List Pt} {idx2 ed2 : List Nat}
    (h : emitSide vIn side vo idx ed = .ok (vo2, idx2, ed2)) :
    (∃ t, vo2 = vo ++ t) ∧
    (vo = idx.map (lookupPt vIn) → vo2 = idx2.map (lookupPt vIn)) ∧
    (vo.Nodup → vo2.Nodup) ∧
    (∀ i ∈ idx2, i ∈ idx ∨ i = side) ∧
    (∀ i ∈ idx2, i ∈ idx ∨ i < vIn.length) ∧
    (∀ k ∈ ed2, k ∈ ed ∨ k < vo2.length) := by
  unfold emitSide at h
  cases hv : vIn[side]? with
  | none => rw [hv] at h; exact absurd h (by simp)
  | some p =>
    rw [hv] at h
    have hlt : side < vIn.length := by
      by_contra hge
      rw [List.getElem?_eq_none (le_of_not_lt hge)] at hv
      exact absurd hv (by simp)
    have hp : p = lookupPt vIn side := by
      rw [lookupPt, List.getD_eq_getElem vIn default hlt]
      rw [List.getElem?_eq_getElem hlt] at hv
      exact (Option.some.injEq _ _ ▸ hv).symm
    dsimp only at h
    by_cases hmem : p ∈ vo
    · rw [if_pos hmem] at h
      simp only [Except.ok.injEq, Prod.mk.injEq] at h
      obtain ⟨h1, h2, h3⟩ := h
      subst h1; subst h2; subst h3
      refine ⟨⟨[], (List.append_nil vo).symm⟩, fun hm => hm, fun hn => hn,
        fun i hi => Or.inl hi, fun i hi => Or.inl hi, fun k hk => ?_⟩
      rcases List.mem_append.1 hk with hk | hk
      · exact Or.inl hk
      · rw [List.mem_singleton.1 hk]
        exact Or.inr (posOf_lt_length p vo hmem)
    · rw [if_neg hmem] at h
      simp only [Except.ok.injEq, Prod.mk.injEq] at h
      obtain ⟨h1, h2, h3⟩ := h
      subst h1; subst h2; subst h3
      refine ⟨⟨[p], rfl⟩, ?_, ?_, ?_, ?_, ?_⟩
      · intro hm
        rw [hm, List.map_append, List.map_singleton, ← hp]
      · intro hn
        simp only [List.nodup_append, List.nodup_singleton, true_and]
        exact ⟨hn, by simpa using fun hx => hmem hx⟩
      · intro i hi
        rcases List.mem_append.1 hi with hi | hi
        · exact Or.inl hi
        · exact Or.inr (List.mem_singleton.1 hi)
      · intro i hi
        rcases List.mem_append.1 hi with hi | hi
        · exact Or.inl hi
        · rw [List.mem_singleton.1 hi]; exact Or.inr hlt
      · intro k hk
        rcases List.mem_append.1 hk with hk | hk
        · exact Or.inl hk
        · rw [List.mem_singleton.1 hk, posOf_append_not_mem p vo hmem]
          refine Or.inr ?_
          rw [List.length_append, List.length_singleton]
          exact Nat.lt_succ_self _

theorem emitEdge_inv {vIn : List Pt} {e : Edge} {vo : List Pt} {idx : List Nat}
    {vo2 : List Pt} {idx2 ed : List Nat}
    (h : emitEdge vIn e vo idx = .ok (vo2, idx2, ed)) :
    (∃ t, vo2 = vo ++ t) ∧
    (vo = idx.map (lookupPt vIn) → vo2 = idx2.map (lookupPt vIn)) ∧
    (vo.Nodup → vo2.Nodup) ∧
    (∀ i ∈ idx2, i ∈ idx ∨ i = e.1 ∨ i = e.2) ∧
    (∀ i ∈ idx2, i ∈ idx ∨ i < vIn.length) ∧
    (∀ k ∈ ed, k < vo2.length) := by
  unfold emitEdge at h
  cases h1 : emitSide vIn e.1 vo idx [] with
  | error s => rw [h1] at h; exact absurd h (by simp)
  | ok r1 =>
    obtain ⟨vo1, idx1, ed1⟩ := r1
    rw [h1] at h
    dsimp only at h
    cases h2 : emitSide vIn e.2 vo1 idx1 ed1 with
    | error s => rw [h2] at h; exact absurd h (by simp)
    | ok r2 =>
      obtain ⟨vo2', idx2', ed2'⟩ := r2
      rw [h2] at h
      dsimp only at h
      simp only [Except.ok.injEq, Prod.mk.injEq] at h
      obtain ⟨ha, hb, hc⟩ := h
      subst ha; subst hb; subst hc
      obtain ⟨⟨t1, he1⟩, hm1, hn1, hi1, hl1, hk1⟩ := emitSide_inv h1
      obtain ⟨⟨t2, he2⟩, hm2, hn2, hi2, hl2, hk2⟩ := emitSide_inv h2
      refine ⟨⟨t1 ++ t2, by rw [he2, he1, List.append_assoc]⟩,
        fun hm => hm2 (hm1 hm), fun hn => hn2 (hn1 hn), ?_, ?_, ?_⟩
      · intro i hi
        rcases hi2 i hi with hi' | hi'
        · rcases hi1 i hi' with h' | h'
          · exact Or.inl h'
          · exact Or.inr (Or.inl h')
        · exact Or.inr (Or.inr hi')
      · intro i hi
        rcases hl2 i hi with h' | h'
        · exact hl1 i h'
        · exact Or.inr h'
      · intro k hk
        rcases hk2 k hk with h' | h'
        · rcases hk1 k h' with h'' | h''
          · exact absurd h'' (List.not_mem_nil _)
          · calc k < vo1.length := h''
              _ ≤ vo2'.length := by rw [he2, List.length_append]; exact Nat.le_add_right _ _
        · exact h'

theorem findContinue0_spec (v : Nat) : ∀ (l c : List (Nat × Nat × Nat)) (ei : Nat),
    findContinue0 v l = some (c, ei) → (∀ t ∈ c, t ∈ l) ∧ ∃ t ∈ l, t.2.2 = ei
  | [], _, _, h => by simp [findContinue0] at h
  | t :: ts, c, ei, h => by
    rw [findContinue0] at h
    by_cases ht : t.1 = v
    · rw [if_pos ht] at h
      simp only [Option.some.injEq, Prod.mk.injEq] at h
      obtain ⟨rfl, rfl⟩ := h
      exact ⟨fun u hu => List.mem_cons_of_mem _ hu, ⟨t, List.mem_cons_self _ _, rfl⟩⟩
    · rw [if_neg ht] at h
      cases hrec : findContinue0 v ts with
      | none => rw [hrec] at h; exact absurd h (by simp)
      | some r =>
        obtain ⟨c', ei'⟩ := r
        rw [hrec] at h
        dsimp only at h
        simp only [Option.some.injEq, Prod.mk.injEq] at h
        obtain ⟨rfl, rfl⟩ := h
        obtain ⟨hsub, u, hu, hue⟩ := findContinue0_spec v ts c' ei' hrec
        refine ⟨?_, ⟨u, List.mem_cons_of_mem _ hu, hue⟩⟩
        intro w hw
        rcases List.mem_cons.1 hw with rfl | hw2
        · exact List.mem_cons_self _ _
        · exact List.mem_cons_of_mem _ (hsub w hw2)

theorem findContinue1_spec (v : Nat) : ∀ (l c : List (Nat × Nat × Nat)) (ei : Nat),
    findContinue1 v l = some (c, ei) → (∀ t ∈ c, t ∈ l) ∧ ∃ t ∈ l, t.2.2 = ei
  | [], _, _, h => by simp [findContinue1] at h
  | t :: ts, c, ei, h => by
    rw [findContinue1] at h
    by_cases ht : t.2.1 = v
    · rw [if_pos ht] at h
      simp only [Option.some.injEq, Prod.mk.injEq] at h
      obtain ⟨rfl, rfl⟩ := h
      exact ⟨fun u hu => List.mem_cons_of_mem _ hu, ⟨t, List.mem_cons_self _ _, rfl⟩⟩
    · rw [if_neg ht] at h
      cases hrec : findContinue1 v ts with
      | none => rw [hrec] at h; exact absurd h (by simp)
      | some r =>
        obtain ⟨c', ei'⟩ := r
        rw [hrec] at h
        dsimp only at h
        simp only [Option.some.injEq, Prod.mk.injEq] at h
        obtain ⟨rfl, rfl⟩ := h
        obtain ⟨hsub, u, hu, hue⟩ := findContinue1_spec v ts c' ei' hrec
        refine ⟨?_, ⟨u, List.mem_cons_of_mem _ hu, hue⟩⟩
        intro w hw
        rcases List.mem_cons.1 hw with rfl | hw2
        · exact List.mem_cons_self _ _
        · exact List.mem_cons_of_mem _ (hsub w hw2)

theorem removeByFst_sub (v : Nat) : ∀ (l c : List (Nat × Nat × Nat)),
    removeByFst v l = some c → ∀ t ∈ c, t ∈ l
  | [], _, h => by simp [removeByFst] at h
  | t :: ts, c, h => by
    rw [removeByFst] at h
    by_cases ht : t.1 = v
    · rw [if_pos ht] at h
      obtain rfl := Option.some.injEq .. ▸ h
      exact fun u hu => List.mem_cons_of_mem _ hu
    · rw [if_neg ht] at h
      cases hrec : removeByFst v ts with
      | none => rw [hrec] at h; exact absurd h (by simp)
      | some c' =>
        rw [hrec] at h
        dsimp only at h
        obtain rfl := Option.some.injEq .. ▸ h
        intro w hw
        rcases List.mem_cons.1 hw with rfl | hw2
        · exact List.mem_cons_self _ _
        · exact List.mem_cons_of_mem _ (removeByFst_sub v ts c' hrec w hw2)

theorem removeBySnd_sub (v : Nat) : ∀ (l c : List (Nat × Nat × Nat)),
    removeBySnd v l = some c → ∀ t ∈ c, t ∈ l
  | [], _, h => by simp [removeBySnd] at h
  | t :: ts, c, h => by
    rw [removeBySnd] at h
    by_cases ht : t.2.1 = v
    · rw [if_pos ht] at h
      obtain rfl := Option.some.injEq .. ▸ h
      exact fun u hu => List.mem_cons_of_mem _ hu
    · rw [if_neg ht] at h
      cases hrec : removeBySnd v ts with
      | none => rw [hrec] at h; exact absurd h (by simp)
      | some c' =>
        rw [hrec] at h
        dsimp only at h
        obtain rfl := Option.some.injEq .. ▸ h
        intro w hw
        rcases List.mem_cons.1 hw with rfl | hw2
        · exact List.mem_cons_self _ _
        · exact List.mem_cons_of_mem _ (removeBySnd_sub v ts c' hrec w hw2)

theorem removeLimVertex_sub {v : Nat} {l c : List (Nat × Nat × Nat)}
    (h : removeLimVertex v l = .ok c) : ∀ t ∈ c, t ∈ l := by
  unfold removeLimVertex at h
  cases h1 : removeByFst v l with
  | some c' =>
    rw [h1] at h
    dsimp only at h
    obtain rfl := Except.ok.injEq .. ▸ h
    exact removeByFst_sub v l c' h1
  | none =>
    rw [h1] at h
    dsimp only at h
    cases h2 : removeBySnd v l with
    | some c' =>
      rw [h2] at h
      dsimp only at h
      obtain rfl := Except.ok.injEq .. ▸ h
      exact removeBySnd_sub v l c' h2
    | none => rw [h2] at h; exact absurd h (by simp)

/-! ### The traversal invariant is preserved -/

theorem walkStep_inv {vIn : List Pt} {eIn : List Edge} {limiting : Bool}
    {limits : List Limit} {s s2 : WalkState}
    (hlim : ∀ t ∈ limits, t.2.2 < eIn.length)
    (h : walkStep vIn eIn limiting limits s = .ok s2)
    (hs : WalkInv vIn eIn s) : WalkInv vIn eIn s2 := by
  obtain ⟨hmap, hnd, hidxlt, htouch, heout, hed, hcopy⟩ := hs
  unfold walkStep at h
  cases hemit : emitEdge vIn (orient (eIn.getD s.edIndex (0, 0)) s.orSide)
      s.vertsOut s.index with
  | error msg => rw [hemit] at h; exact absurd h (by simp)
  | ok r =>
    obtain ⟨vo, idx, ed⟩ := r
    rw [hemit] at h
    dsimp only at h
    obtain ⟨⟨t0, hext⟩, hm, hn, hi, hl, hk⟩ := emitEdge_inv hemit
    have hmap2 : vo = idx.map (lookupPt vIn) := hm hmap
    have hnd2 : vo.Nodup := hn hnd
    have hidxlt2 : ∀ i ∈ idx, i < vIn.length := fun i hi2 => by
      rcases hl i hi2 with h' | h'
      · exact hidxlt i h'
      · exact h'
    have htouch2 : ∀ i ∈ idx, ∃ e ∈ eIn, i = e.1 ∨ i = e.2 := fun i hi2 => by
      rcases hi i hi2 with h' | h'
      · exact htouch i h'
      · have hmem : eIn.getD s.edIndex (0, 0) ∈ eIn := by
          rw [List.getD_eq_getElem eIn (0, 0) hed]
          exact List.getElem_mem _
        refine ⟨eIn.getD s.edIndex (0, 0), hmem, ?_⟩
        unfold orient at h'
        by_cases hos : s.orSide = 1
        · rw [if_pos hos] at h'
          rcases h' with h' | h'
          · exact Or.inr h'
          · exact Or.inl h'
        · rw [if_neg hos] at h'
          exact h'
    have heout2 : ∀ e2 ∈ s.edgesOut ++ [ed], ∀ k ∈ e2, k < vo.length := by
      intro e2 he2 k hk2
      rcases List.mem_append.1 he2 with he2 | he2
      · calc k < s.vertsOut.length := heout e2 he2 k hk2
          _ ≤ vo.length := by rw [hext, List.length_append]; exact Nat.le_add_right _ _
      · rw [List.mem_singleton.1 he2] at hk2
        exact hk k hk2
    cases hc0 : findContinue0 (orient (eIn.getD s.edIndex (0, 0)) s.orSide).2 s.copy with
    | some r0 =>
      obtain ⟨c, ei⟩ := r0
      rw [hc0] at h
      dsimp only at h
      obtain rfl : WalkState.mk c ei 0 vo (s.edgesOut ++ [ed]) idx = s2 :=
        Except.ok.injEq .. ▸ h
      obtain ⟨hsub, u, hu, hue⟩ := findContinue0_spec _ _ _ _ hc0
      exact ⟨hmap2, hnd2, hidxlt2, htouch2, heout2, hue ▸ hcopy u hu,
        fun t ht => hcopy t (hsub t ht)⟩
    | none =>
      rw [hc0] at h
      dsimp only at h
      cases hc1 : findContinue1 (orient (eIn.getD s.edIndex (0, 0)) s.orSide).2 s.copy with
      | some r1 =>
        obtain ⟨c, ei⟩ := r1
        rw [hc1] at h
        dsimp only at h
        obtain rfl : WalkState.mk c ei 1 vo (s.edgesOut ++ [ed]) idx = s2 :=
          Except.ok.injEq .. ▸ h
        obtain ⟨hsub, u, hu, hue⟩ := findContinue1_spec _ _ _ _ hc1
        exact ⟨hmap2, hnd2, hidxlt2, htouch2, heout2, hue ▸ hcopy u hu,
          fun t ht => hcopy t (hsub t ht)⟩
      | none =>
        rw [hc1] at h
        dsimp only at h
        by_cases hlen : 0 < s.copy.length
        · rw [if_pos hlen] at h
          cases hlimiting : limiting
          · rw [hlimiting, if_neg Bool.false_ne_true] at h
            cases hcopy0 : s.copy with
            | nil => rw [hcopy0] at h; exact absurd h (by simp)
            | cons t ts =>
              rw [hcopy0] at h
              dsimp only at h
              obtain rfl : WalkState.mk ts t.2.2 0 vo (s.edgesOut ++ [ed]) idx = s2 :=
                Except.ok.injEq .. ▸ h
              refine ⟨hmap2, hnd2, hidxlt2, htouch2, heout2,
                hcopy t (hcopy0 ▸ List.mem_cons_self _ _), fun u hu =>
                  hcopy u (hcopy0 ▸ List.mem_cons_of_mem _ hu)⟩
          · rw [hlimiting, if_pos rfl] at h
            cases hrs : findRestart limits idx with
            | none =>
              rw [hrs] at h
              dsimp only at h
              obtain rfl : WalkState.mk s.copy s.edIndex s.orSide vo
                  (s.edgesOut ++ [ed]) idx = s2 := Except.ok.injEq .. ▸ h
              exact ⟨hmap2, hnd2, hidxlt2, htouch2, heout2, hed, hcopy⟩
            | some lm =>
              rw [hrs] at h
              dsimp only at h
              cases hrm : removeLimVertex lm.1 s.copy with
              | error msg => rw [hrm] at h; exact absurd h (by simp)
              | ok c =>
                rw [hrm] at h
                dsimp only at h
                obtain rfl : WalkState.mk c lm.2.2 lm.2.1 vo
                    (s.edgesOut ++ [ed]) idx = s2 := Except.ok.injEq .. ▸ h
                have hlm : lm ∈ limits := List.mem_of_find?_eq_some hrs
                exact ⟨hmap2, hnd2, hidxlt2, htouch2, heout2, hlim lm hlm,
                  fun t ht => hcopy t (removeLimVertex_sub hrm t ht)⟩
        · rw [if_neg hlen] at h
          obtain rfl : WalkState.mk s.copy s.edIndex s.orSide vo
              (s.edgesOut ++ [ed]) idx = s2 := Except.ok.injEq .. ▸ h
          exact ⟨hmap2, hnd2, hidxlt2, htouch2, heout2, hed, hcopy⟩

theorem walkLoop_inv {vIn : List Pt} {eIn : List Edge} {limiting : Bool}
    {limits : List Limit} (hlim : ∀ t ∈ limits, t.2.2 < eIn.length) :
    ∀ (n : Nat) (s s2 : WalkState),
      walkLoop vIn eIn limiting limits n s = .ok s2 →
      WalkInv vIn eIn s → WalkInv vIn eIn s2
  | 0, s, s2, h, hs => by
    rw [walkLoop] at h
    obtain rfl : s = s2 := Except.ok.injEq .. ▸ h
    exact hs
  | n + 1, s, s2, h, hs => by
    rw [walkLoop] at h
    cases hstep : walkStep vIn eIn limiting limits s with
    | error msg => rw [hstep] at h; exact absurd h (by simp)
    | ok s1 =>
      rw [hstep] at h
      dsimp only at h
      exact walkLoop_inv hlim n s1 s2 h (walkStep_inv hlim hstep hs)

/-! ### The closing loop that appends never-visited vertices -/

theorem drop_cons_facts {vIn ps : List Pt} {p : Pt} {i : Nat} (h : vIn.drop i = p :: ps) :
    i < vIn.length ∧ lookupPt vIn i = p ∧ vIn.drop (i + 1) = ps := by
  have hlt : i < vIn.length := by
    by_contra hge
    rw [List.drop_eq_nil_of_le (le_of_not_lt hge)] at h
    exact absurd h (by simp)
  refine ⟨hlt, ?_, ?_⟩
  · have hget : vIn[i]? = some p := by
      have := List.getElem?_drop vIn i 0
      rw [Nat.add_zero, h] at this
      simpa using this.symm
    rw [lookupPt, List.getD_eq_getD_get?, List.get?_eq_getElem?, hget]
    rfl
  · rw [← List.tail_drop, h]
    rfl

theorem addUnconnected_inv {vIn : List Pt} : ∀ (ps : List Pt) (i : Nat) (vo : List Pt)
    (idx : List Nat), vIn.drop i = ps → vo = idx.map (lookupPt vIn) → vo.Nodup →
    (∀ j ∈ idx, j < vIn.length) →
    (addUnconnected vIn ps i vo idx).1 =
        (addUnconnected vIn ps i vo idx).2.map (lookupPt vIn) ∧
      (addUnconnected vIn ps i vo idx).1.Nodup ∧
      (∀ j ∈ (addUnconnected vIn ps i vo idx).2, j < vIn.length)
  | [], i, vo, idx, _, hmap, hnd, hlt => ⟨hmap, hnd, hlt⟩
  | p :: ps, i, vo, idx, hdrop, hmap, hnd, hlt => by
    obtain ⟨hi, hlook, hdrop2⟩ := drop_cons_facts hdrop
    rw [addUnconnected]
    by_cases hmem : p ∈ vo
    · rw [if_pos hmem]
      exact addUnconnected_inv ps (i + 1) vo idx hdrop2 hmap hnd hlt
    · rw [if_neg hmem]
      refine addUnconnected_inv ps (i + 1) (vo ++ [p]) (idx ++ [i]) hdrop2 ?_ ?_ ?_
      · rw [hmap, List.map_append, List.map_singleton, hlook]
      · simp only [List.nodup_append, List.nodup_singleton, true_and]
        exact ⟨hnd, by simpa using fun hx => hmem hx⟩
      · intro j hj
        rcases List.mem_append.1 hj with hj | hj
        · exact hlt j hj
        · rw [List.mem_singleton.1 hj]; exact hi

theorem addUnconnected_idx {vIn : List Pt} (hinj : PtInj vIn) :
    ∀ (ps : List Pt) (i : Nat) (vo : List Pt) (idx : List Nat),
      vIn.drop i = ps → vo = idx.map (lookupPt vIn) → (∀ j ∈ idx, j < vIn.length) →
      (addUnconnected vIn ps i vo idx).2 =
        idx ++ (List.range' i ps.length).filter (fun j => !decide (j ∈ idx))
  | [], i, vo, idx, _, _, _ => by simp [addUnconnected]
  | p :: ps, i, vo, idx, hdrop, hmap, hlt => by
    obtain ⟨hi, hlook, hdrop2⟩ := drop_cons_facts hdrop
    have hmem_iff : p ∈ vo ↔ i ∈ idx := by
      constructor
      · intro hm
        rw [hmap] at hm
        obtain ⟨j, hj, hjp⟩ := List.mem_map.1 hm
        have : j = i := hinj j i (hlt j hj) hi (by rw [hjp, hlook])
        exact this ▸ hj
      · intro hm
        rw [hmap, ← hlook]
        exact List.mem_map.2 ⟨i, hm, rfl⟩
    rw [addUnconnected, List.length_cons, List.range'_succ]
    by_cases hmem : p ∈ vo
    · rw [if_pos hmem, addUnconnected_idx hinj ps (i + 1) vo idx hdrop2 hmap hlt,
        List.filter_cons]
      have : (!decide (i ∈ idx)) = false := by
        simp only [Bool.not_eq_false', decide_eq_true_eq]
        exact hmem_iff.1 hmem
      rw [this, if_neg Bool.false_ne_true]
    · rw [if_neg hmem, addUnconnected_idx hinj ps (i + 1) (vo ++ [p]) (idx ++ [i]) hdrop2
        ?_ ?_, List.filter_cons]
      · have hpt : (!decide (i ∈ idx)) = true := by
          simp only [Bool.not_eq_true', decide_eq_false_iff_not]
          exact fun hm => hmem (hmem_iff.2 hm)
        rw [hpt, if_pos rfl, List.append_assoc, List.singleton_append]
        have hcong : (List.range' (i + 1) ps.length).filter
              (fun j => !decide (j ∈ idx ++ [i])) =
            (List.range' (i + 1) ps.length).filter (fun j => !decide (j ∈ idx)) := by
          apply List.filter_congr
          intro j hj
          have hji : i + 1 ≤ j := (List.mem_range'_1.1 hj).1
          have : (j ∈ idx ++ [i]) ↔ (j ∈ idx) := by
            rw [List.mem_append, List.mem_singleton]
            constructor
            · intro hc
              rcases hc with hc | hc
              · exact hc
              · omega
            · exact Or.inl
          exact congrArg (fun b => !b) (decide_eq_decide.2 this)
        rw [hcong]
      · rw [hmap, List.map_append, List.map_singleton, hlook]
      · intro j hj
        rcases List.mem_append.1 hj with hj | hj
        · exact hlt j hj
        · rw [List.mem_singleton.1 hj]; exact hi

/-! ### Facts about `find_limits` and the start of the traversal -/

theorem vCountList_bound (n : Nat) : ∀ (es : List Edge) (i : Nat)
    (vc vc2 : List (Nat × Nat × Nat)), vCountList n i vc es = .ok vc2 →
    (∀ t ∈ vc, t.1 = 0 ∨ t.2.2 < i) → ∀ t ∈ vc2, t.1 = 0 ∨ t.2.2 < i + es.length
  | [], i, vc, vc2, h, hvc => by
    rw [vCountList] at h
    obtain rfl : vc = vc2 := Except.ok.injEq .. ▸ h
    simpa using hvc
  | e :: es, i, vc, vc2, h, hvc => by
    rw [vCountList] at h
    by_cases hcond : e.1 < n ∧ e.2 < n
    · rw [if_pos hcond] at h
      have hb : ∀ t ∈ bumpVC (bumpVC vc e.1 0 i) e.2 1 i, t.1 = 0 ∨ t.2.2 < i + 1 := by
        intro t ht
        rcases List.mem_or_eq_of_mem_set ht with ht | ht
        · rcases List.mem_or_eq_of_mem_set ht with ht | ht
          · rcases hvc t ht with h' | h'
            · exact Or.inl h'
            · exact Or.inr (Nat.lt_succ_of_lt h')
          · rw [ht]; exact Or.inr (Nat.lt_succ_self i)
        · rw [ht]; exact Or.inr (Nat.lt_succ_self i)
      have := vCountList_bound n es (i + 1) _ vc2 h hb
      intro t ht
      rcases this t ht with h' | h'
      · exact Or.inl h'
      · refine Or.inr ?_
        calc t.2.2 < i + 1 + es.length := h'
          _ = i + (e :: es).length := by rw [List.length_cons]; omega
    · rw [if_neg hcond] at h
      exact absurd h (by simp)

theorem find_limits_spec {vIn : List Pt} {eIn : List Edge} {limits : List Limit}
    (h : find_limits vIn eIn = .ok limits) :
    (∀ t ∈ limits, t.2.2 < eIn.length) ∧ limits.Pairwise (fun a b => a.1 < b.1) := by
  unfold find_limits at h
  cases hvc : vCountList vIn.length 0 (List.replicate vIn.length (0, 0, 0)) eIn with
  | error s => rw [hvc] at h; exact absurd h (by simp)
  | ok vc =>
    rw [hvc] at h
    dsimp only at h
    obtain rfl : _ = limits := Except.ok.injEq .. ▸ h
    constructor
    · intro t ht
      obtain ⟨i, _, hfi⟩ := List.mem_filterMap.1 ht
      by_cases hcond : (vc.getD i (0, 0, 0)).1 = 1
      · rw [if_pos hcond] at hfi
        obtain rfl : (i, (vc.getD i (0, 0, 0)).2.1, (vc.getD i (0, 0, 0)).2.2) = t :=
          Option.some.injEq .. ▸ hfi
        have hbound := vCountList_bound vIn.length eIn 0 _ vc hvc ?hrep
        case hrep =>
          intro t2 ht2
          rw [List.eq_of_mem_replicate ht2]
          exact Or.inl rfl
        have hmem : vc.getD i (0, 0, 0) ∈ vc ∨ vc.getD i (0, 0, 0) = (0, 0, 0) := by
          by_cases hilt : i < vc.length
          · rw [List.getD_eq_getElem vc (0, 0, 0) hilt]
            exact Or.inl (List.getElem_mem _)
          · rw [List.getD_eq_default vc (0, 0, 0) (le_of_not_lt hilt)]
            exact Or.inr rfl
        rcases hmem with hmem | hmem
        · rcases hbound (vc.getD i (0, 0, 0)) hmem with h' | h'
          · rw [h'] at hcond; exact absurd hcond (by simp)
          · simpa using h'
        · rw [hmem] at hcond; exact absurd hcond (by simp)
      · rw [if_neg hcond] at hfi
        exact absurd hfi (by simp)
    · rw [List.pairwise_filterMap]
      have hrange := List.pairwise_lt_range vIn.length
      refine hrange.imp_of_mem ?_
      intro a b _ _ hab x hx y hy
      by_cases hca : (vc.getD a (0, 0, 0)).1 = 1
      · rw [if_pos hca] at hx
        by_cases hcb : (vc.getD b (0, 0, 0)).1 = 1
        · rw [if_pos hcb] at hy
          rw [Option.mem_def] at hx hy
          obtain rfl : _ = x := Option.some.injEq .. ▸ hx
          obtain rfl : _ = y := Option.some.injEq .. ▸ hy
          exact hab
        · rw [if_neg hcb] at hy; exact absurd hy (by simp)
      · rw [if_neg hca] at hx
        exact absurd hx (by simp)

theorem popAt_ok {l : List α} {k : Nat} {c : List α} (h : popAt l k = .ok c) :
    k < l.length ∧ c = l.eraseIdx k := by
  unfold popAt at h
  by_cases hk : k < l.length
  · rw [if_pos hk] at h
    exact ⟨hk, (Except.ok.injEq .. ▸ h).symm⟩
  · rw [if_neg hk] at h
    exact absurd h (by simp)

theorem copyFrom_bound : ∀ (es : List Edge) (k : Nat) (t : Nat × Nat × Nat),
    t ∈ copyFrom k es → t.2.2 < k + es.length
  | [], _, _, h => absurd h (List.not_mem_nil _)
  | e :: es, k, t, h => by
    rcases List.mem_cons.1 h with rfl | h2
    · simp
    · have := copyFrom_bound es (k + 1) t h2
      rw [List.length_cons]
      omega

theorem copyFrom_length : ∀ (es : List Edge) (k : Nat),
    (copyFrom k es).length = es.length
  | [], _ => rfl
  | e :: es, k => by rw [copyFrom, List.length_cons, copyFrom_length es (k + 1),
      List.length_cons]

/-! ### Decomposing a successful run of the connectivity sort -/

theorem sort_connex_cases {vIn : List Pt} {eIn : List Edge} {lm : Bool}
    {r : List Pt × List (List Nat) × List Nat}
    (h : sort_vertices_by_connexions vIn eIn lm = .ok r) :
    ∃ s : WalkState, WalkInv vIn eIn s ∧ r.2.1 = s.edgesOut ∧
      ((s.vertsOut.length ≠ vIn.length ∧
          r.1 = (addUnconnected vIn vIn 0 s.vertsOut s.index).1 ∧
          r.2.2 = (addUnconnected vIn vIn 0 s.vertsOut s.index).2) ∨
        (s.vertsOut.length = vIn.length ∧ r.1 = s.vertsOut ∧ r.2.2 = s.index)) := by
  unfold sort_vertices_by_connexions at h
  cases hsc : startChoice vIn eIn lm with
  | error s => rw [hsc] at h; exact absurd h (by simp)
  | ok q =>
    obtain ⟨limiting, limits, ei0, os0⟩ := q
    rw [hsc] at h
    dsimp only at h
    cases hpop : popAt (copyFrom 0 eIn) ei0 with
    | error s => rw [hpop] at h; exact absurd h (by simp)
    | ok copy0 =>
      rw [hpop] at h
      dsimp only at h
      cases hloop : walkLoop vIn eIn limiting limits eIn.length
          ⟨copy0, ei0, os0, [], [], []⟩ with
      | error s => rw [hloop] at h; exact absurd h (by simp)
      | ok s =>
        rw [hloop] at h
        dsimp only at h
        have hlim : ∀ t ∈ limits, t.2.2 < eIn.length := by
          unfold startChoice at hsc
          by_cases hl : lm
          · rw [if_pos hl] at hsc
            cases hfl : find_limits vIn eIn with
            | error s2 => rw [hfl] at hsc; exact absurd hsc (by simp)
            | ok fl =>
              rw [hfl] at hsc
              dsimp only at hsc
              by_cases hn : 0 < fl.length
              · rw [if_pos hn] at hsc
                simp only [Except.ok.injEq, Prod.mk.injEq] at hsc
                obtain ⟨-, h2, -, -⟩ := hsc
                intro t ht
                exact (find_limits_spec hfl).1 t (List.mem_of_mem_tail (h2 ▸ ht))
              · rw [if_neg hn] at hsc
                simp only [Except.ok.injEq, Prod.mk.injEq] at hsc
                obtain ⟨-, h2, -, -⟩ := hsc
                intro t ht
                rw [← h2] at ht
                exact absurd ht (List.not_mem_nil _)
          · rw [if_neg hl] at hsc
            simp only [Except.ok.injEq, Prod.mk.injEq] at hsc
            obtain ⟨-, h2, -, -⟩ := hsc
            intro t ht
            rw [← h2] at ht
            exact absurd ht (List.not_mem_nil _)
        obtain ⟨hk, hc0⟩ := popAt_ok hpop
        have hinv0 : WalkInv vIn eIn ⟨copy0, ei0, os0, [], [], []⟩ := by
          refine ⟨rfl, List.nodup_nil, ?_, ?_, ?_, ?_, ?_⟩
          · intro i hi; exact absurd hi (List.not_mem_nil _)
          · intro i hi; exact absurd hi (List.not_mem_nil _)
          · intro ed hed; exact absurd hed (List.not_mem_nil _)
          · rw [copyFrom_length] at hk; exact hk
          · intro t ht
            rw [hc0] at ht
            have hmem := (List.eraseIdx_sublist (copyFrom 0 eIn) ei0).subset ht
            have h2 := copyFrom_bound eIn 0 t hmem
            simpa using h2
        have hinv := walkLoop_inv hlim eIn.length _ s hloop hinv0
        by_cases hfin : s.vertsOut.length ≠ vIn.length
        · rw [if_pos hfin] at h
          obtain rfl : _ = r := Except.ok.injEq .. ▸ h
          exact ⟨s, hinv, rfl, Or.inl ⟨hfin, rfl, rfl⟩⟩
        · rw [if_neg hfin] at h
          obtain rfl : _ = r := Except.ok.injEq .. ▸ h
          exact ⟨s, hinv, rfl, Or.inr ⟨not_ne_iff.1 hfin, rfl, rfl⟩⟩

theorem pairwise_ne_ptInj {vIn : List Pt} (h : vIn.Pairwise (fun a b => a ≠ b)) :
    PtInj vIn := by
  intro i j hi hj heq
  by_contra hne
  rw [List.pairwise_iff_getElem] at h
  have heq2 : vIn[i] = vIn[j] := by
    rw [lookupPt, lookupPt, List.getD_eq_getElem _ _ hi, List.getD_eq_getElem _ _ hj] at heq
    exact heq
  rcases Nat.lt_or_ge i j with hij | hij
  · exact h i j hi hj hij heq2
  · exact h j i hj hi (lt_of_le_of_ne hij (Ne.symm hne)) heq2.symm

/-- With pairwise-distinct points, a successful connectivity sort always traces
a permutation of all original indices. -/
theorem connex_index_perm {vIn : List Pt} {eIn : List Edge} {lm : Bool}
    {r : List Pt × List (List Nat) × List Nat}
    (h : sort_vertices_by_connexions vIn eIn lm = .ok r)
    (hne : vIn.Pairwise (fun a b => a ≠ b)) :
    r.2.2.Perm (List.range vIn.length) := by
  have hinj := pairwise_ne_ptInj hne
  obtain ⟨s, ⟨hmap, hnd, hlt, -, -, -, -⟩, -, hcase⟩ := sort_connex_cases h
  have hnd2 : (s.index.map (lookupPt vIn)).Nodup := hmap ▸ hnd
  have hidx_nd : s.index.Nodup := hnd2.of_map
  rcases hcase with ⟨-, -, hidx⟩ | ⟨hlen, -, hidx⟩
  · rw [hidx, addUnconnected_idx hinj vIn 0 s.vertsOut s.index (List.drop_zero vIn) hmap hlt,
      List.range_eq_range']
    have hBnd : ((List.range' 0 vIn.length).filter
        (fun j => !decide (j ∈ s.index))).Nodup := by
      refine List.Nodup.filter _ ?_
      rw [← List.range_eq_range']
      exact List.nodup_range _
    have hnd3 : (s.index ++ (List.range' 0 vIn.length).filter
        (fun j => !decide (j ∈ s.index))).Nodup := by
      rw [List.nodup_append]
      refine ⟨hidx_nd, hBnd, ?_⟩
      rw [List.disjoint_left]
      intro a ha haB
      have := (List.mem_filter.1 haB).2
      simp only [Bool.not_eq_true', decide_eq_false_iff_not] at this
      exact this ha
    have hrng : (List.range' 0 vIn.length).Nodup := by
      rw [← List.range_eq_range']
      exact List.nodup_range _
    refine (List.perm_ext_iff_of_nodup hnd3 hrng).2 ?_
    intro a
    rw [← List.range_eq_range', List.mem_append, List.mem_filter, List.mem_range]
    constructor
    · intro hc
      rcases hc with hc | ⟨hc, -⟩
      · exact hlt a hc
      · exact hc
    · intro ha
      by_cases hmem : a ∈ s.index
      · exact Or.inl hmem
      · exact Or.inr ⟨ha, by simpa using hmem⟩
  · rw [hidx]
    have hsub : s.index.Subperm (List.range vIn.length) :=
      hidx_nd.subperm fun i hi => List.mem_range.2 (hlt i hi)
    have hlen2 : (List.range vIn.length).length ≤ s.index.length := by
      rw [List.length_range]
      have hml : s.vertsOut.length = s.index.length := by rw [hmap, List.length_map]
      omega
    exact hsub.perm_of_length_le hlen2

/-! ### Remapping: success exactly characterised -/

theorem posOfQ_isSome_iff (p : α → Bool) : ∀ l : List α,
    (posOfQ p l).isSome = true ↔ ∃ a ∈ l, p a = true
  | [] => by simp [posOfQ]
  | a :: l => by
    rw [posOfQ]
    by_cases hp : p a
    · rw [if_pos hp]
      simp only [Option.isSome_some, true_iff]
      exact ⟨a, List.mem_cons_self _ _, hp⟩
    · rw [if_neg hp]
      rw [Option.isSome_map']
      rw [posOfQ_isSome_iff p l]
      constructor
      · rintro ⟨b, hb, hpb⟩
        exact ⟨b, List.mem_cons_of_mem _ hb, hpb⟩
      · rintro ⟨b, hb, hpb⟩
        rcases List.mem_cons.1 hb with rfl | hb2
        · exact absurd hpb (by simpa using hp)
        · exact ⟨b, hb2, hpb⟩

theorem mapE_ok_iff (f : α → Except String β) : ∀ l : List α,
    okE (mapE f l) ↔ ∀ a ∈ l, okE (f a)
  | [] => by simp [mapE, okE]
  | a :: as => by
    constructor
    · rintro ⟨bs, hbs⟩
      rw [mapE] at hbs
      cases hfa : f a with
      | error s => rw [hfa] at hbs; exact absurd hbs (by simp)
      | ok b =>
        rw [hfa] at hbs
        dsimp only at hbs
        cases hrec : mapE f as with
        | error s => rw [hrec] at hbs; exact absurd hbs (by simp)
        | ok bs2 =>
          intro x hx
          rcases List.mem_cons.1 hx with rfl | hx2
          · exact ⟨b, hfa⟩
          · exact ((mapE_ok_iff f as).1 ⟨bs2, hrec⟩) x hx2
    · intro hall
      obtain ⟨b, hb⟩ := hall a (List.mem_cons_self _ _)
      obtain ⟨bs, hbs⟩ :=
        (mapE_ok_iff f as).2 fun x hx => hall x (List.mem_cons_of_mem _ hx)
      refine ⟨b :: bs, ?_⟩
      rw [mapE, hb]
      dsimp only
      rw [hbs]

theorem xyzVIndex_ok_iff (sv : List (Pt × Nat)) (n : Nat) :
    okE (xyzVIndex sv n) ↔ n ∈ sv.map Prod.snd := by
  unfold xyzVIndex
  cases hq : posOfQ (fun it => it.2 == n) sv with
  | some j =>
    constructor
    · intro _
      have hs : (posOfQ (fun it : Pt × Nat => it.2 == n) sv).isSome = true := by
        rw [hq]; rfl
      obtain ⟨a, ha, hpa⟩ := (posOfQ_isSome_iff _ sv).1 hs
      exact List.mem_map.2 ⟨a, ha, by simpa using hpa⟩
    · intro _; exact ⟨j, rfl⟩
  | none =>
    constructor
    · rintro ⟨x, hx⟩; exact absurd hx (by simp)
    · intro hmem
      obtain ⟨a, ha, hfa⟩ := List.mem_map.1 hmem
      have hs : (posOfQ (fun it : Pt × Nat => it.2 == n) sv).isSome = true :=
        (posOfQ_isSome_iff _ sv).2 ⟨a, ha, by rw [hfa]; exact beq_self_eq_true n⟩
      rw [hq] at hs
      exact absurd hs (by simp)

theorem connexPos_ok_iff (idxNew : List Nat) (i : Nat) :
    okE (connexPos idxNew i) ↔ i ∈ idxNew := by
  unfold connexPos
  cases hq : posOfQ (fun j => j == i) idxNew with
  | some j =>
    constructor
    · intro _
      have hs : (posOfQ (fun j : Nat => j == i) idxNew).isSome = true := by
        rw [hq]; rfl
      obtain ⟨a, ha, hpa⟩ := (posOfQ_isSome_iff _ idxNew).1 hs
      have : a = i := by simpa using hpa
      exact this ▸ ha
    · intro _; exact ⟨j, rfl⟩
  | none =>
    constructor
    · rintro ⟨x, hx⟩; exact absurd hx (by simp)
    · intro hmem
      have hs : (posOfQ (fun j : Nat => j == i) idxNew).isSome = true :=
        (posOfQ_isSome_iff _ idxNew).2 ⟨i, hmem, beq_self_eq_true i⟩
      rw [hq] at hs
      exact absurd hs (by simp)

theorem posOf_append [DecidableEq α] (a : α) : ∀ (l₁ l₂ : List α), a ∉ l₁ →
    posOf a (l₁ ++ l₂) = l₁.length + posOf a l₂
  | [], l₂, _ => by simp [posOf]
  | b :: l₁, l₂, h => by
    rw [List.cons_append, posOf, if_neg, List.length_cons,
      posOf_append a l₁ l₂ (fun hm => h (List.mem_cons_of_mem _ hm))]
    · omega
    · intro hb
      exact h (hb ▸ List.mem_cons_self _ _)

/-! ### Pointwise evaluation lemmas for symbolic runs of the traversal -/

theorem emitSide_not_mem {vIn : List Pt} {side : Nat} {vo : List Pt} {idx ed : List Nat}
    (hlt : side < vIn.length) (hmem : lookupPt vIn side ∉ vo) :
    emitSide vIn side vo idx ed =
      .ok (vo ++ [lookupPt vIn side], idx ++ [side], ed ++ [vo.length]) := by
  unfold emitSide
  have hv : vIn[side]? = some (lookupPt vIn side) := by
    rw [List.getElem?_eq_getElem hlt, lookupPt, List.getD_eq_getElem vIn default hlt]
  rw [hv]
  dsimp only
  rw [if_neg hmem, posOf_append_not_mem _ _ hmem]

theorem emitSide_mem {vIn : List Pt} {side : Nat} {vo : List Pt} {idx ed : List Nat}
    (hlt : side < vIn.length) (hmem : lookupPt vIn side ∈ vo) :
    emitSide vIn side vo idx ed = .ok (vo, idx, ed ++ [posOf (lookupPt vIn side) vo]) := by
  unfold emitSide
  have hv : vIn[side]? = some (lookupPt vIn side) := by
    rw [List.getElem?_eq_getElem hlt, lookupPt, List.getD_eq_getElem vIn default hlt]
  rw [hv]
  dsimp only
  rw [if_pos hmem]

theorem emitEdge_eval {vIn : List Pt} {e : Edge} {vo vo1 vo2 : List Pt}
    {idx idx1 idx2 ed1 ed2 : List Nat}
    (h1 : emitSide vIn e.1 vo idx [] = .ok (vo1, idx1, ed1))
    (h2 : emitSide vIn e.2 vo1 idx1 ed1 = .ok (vo2, idx2, ed2)) :
    emitEdge vIn e vo idx = .ok (vo2, idx2, ed2) := by
  unfold emitEdge
  rw [h1]
  dsimp only
  rw [h2]

theorem walkStep_eval_cont0 {vIn : List Pt} {eIn : List Edge} {limiting : Bool}
    {limits : List Limit} {s : WalkState} {vo : List Pt} {idx ed : List Nat}
    {c : List (Nat × Nat × Nat)} {ei : Nat}
    (hemit : emitEdge vIn (orient (eIn.getD s.edIndex (0, 0)) s.orSide)
      s.vertsOut s.index = .ok (vo, idx, ed))
    (hc : findContinue0 (orient (eIn.getD s.edIndex (0, 0)) s.orSide).2 s.copy =
      some (c, ei)) :
    walkStep vIn eIn limiting limits s = .ok ⟨c, ei, 0, vo, s.edgesOut ++ [ed], idx⟩ := by
  unfold walkStep
  rw [hemit]
  dsimp only
  rw [hc]

theorem walkStep_eval_stop {vIn : List Pt} {eIn : List Edge} {limiting : Bool}
    {limits : List Limit} {s : WalkState} {vo : List Pt} {idx ed : List Nat}
    (hemit : emitEdge vIn (orient (eIn.getD s.edIndex (0, 0)) s.orSide)
      s.vertsOut s.index = .ok (vo, idx, ed))
    (hc0 : findContinue0 (orient (eIn.getD s.edIndex (0, 0)) s.orSide).2 s.copy = none)
    (hc1 : findContinue1 (orient (eIn.getD s.edIndex (0, 0)) s.orSide).2 s.copy = none)
    (hlen : s.copy.length = 0) :
    walkStep vIn eIn limiting limits s =
      .ok ⟨s.copy, s.edIndex, s.orSide, vo, s.edgesOut ++ [ed], idx⟩ := by
  unfold walkStep
  rw [hemit]
  dsimp only
  rw [hc0]
  dsimp only
  rw [hc1]
  dsimp only
  rw [if_neg (by rw [hlen]; exact lt_irrefl 0)]

theorem walkLoop_unroll {vIn : List Pt} {eIn : List Edge} {limiting : Bool}
    {limits : List Limit} {s s1 : WalkState} (n : Nat)
    (h : walkStep vIn eIn limiting limits s = .ok s1) :
    walkLoop vIn eIn limiting limits (n + 1) s =
      walkLoop vIn eIn limiting limits n s1 := by
  rw [walkLoop, h]

theorem sort_eval_noappend {vIn : List Pt} {eIn : List Edge} {lm limiting : Bool}
    {limits : List Limit} {ei0 os0 : Nat} {copy0 : List (Nat × Nat × Nat)}
    {s : WalkState}
    (hsc : startChoice vIn eIn lm = .ok (limiting, limits, ei0, os0))
    (hpop : popAt (copyFrom 0 eIn) ei0 = .ok copy0)
    (hloop : walkLoop vIn eIn limiting limits eIn.length
      ⟨copy0, ei0, os0, [], [], []⟩ = .ok s)
    (hlen : s.vertsOut.length = vIn.length) :
    sort_vertices_by_connexions vIn eIn lm = .ok (s.vertsOut, s.edgesOut, s.index) := by
  unfold sort_vertices_by_connexions
  rw [hsc]
  dsimp only
  rw [hpop]
  dsimp only
  rw [hloop]
  dsimp only
  rw [if_neg (not_ne_iff.2 hlen)]

/-! ### The four-point open chain, traversed with limit detection -/

/-- C2 (amended): in connectivity mode with limit detection enabled, for every
list of 4 PAIRWISE-DISTINCT points connected by edges `[(0,1),(1,2),(2,3)]`,
the traversal starts at an endpoint (it emits original index 0 first), the
output order visits all 4 points exactly once contiguously along the chain
(`[0,1,2,3]`), and the reindexed edges are exactly `[(0,1),(1,2),(2,3)]` in
new indices.  The distinctness proviso is forced: the walk deduplicates
visited vertices by coordinate value (see the counterexample). -/
theorem c2_chain_roundtrip (v0 v1 v2 v3 : Pt) (h01 : v0 ≠ v1) (h02 : v0 ≠ v2)
    (h03 : v0 ≠ v3) (h12 : v1 ≠ v2) (h13 : v1 ≠ v3) (h23 : v2 ≠ v3) :
    sort_vertices_by_connexions [v0, v1, v2, v3] [(0, 1), (1, 2), (2, 3)] true =
      .ok ([v0, v1, v2, v3], [[0, 1], [1, 2], [2, 3]], [0, 1, 2, 3]) := by
  have hm1 : (v1 : Pt) ∉ [v0] := fun hm => h01 (List.mem_singleton.1 hm).symm
  have hm2 : (v2 : Pt) ∉ [v0, v1] := by
    intro hm
    rcases List.mem_cons.1 hm with h | h
    · exact h02 h.symm
    · exact h12 (List.mem_singleton.1 h).symm
  have hm3 : (v3 : Pt) ∉ [v0, v1, v2] := by
    intro hm
    rcases List.mem_cons.1 hm with h | h
    · exact h03 h.symm
    rcases List.mem_cons.1 h with h | h
    · exact h13 h.symm
    · exact h23 (List.mem_singleton.1 h).symm
  have hpos1 : posOf (lookupPt [v0, v1, v2, v3] 1) [v0, v1] = 1 := by
    show posOf v1 [v0, v1] = 1
    rw [posOf, if_neg h01, posOf, if_pos rfl]
  have hpos2 : posOf (lookupPt [v0, v1, v2, v3] 2) [v0, v1, v2] = 2 := by
    show posOf v2 [v0, v1, v2] = 2
    rw [posOf, if_neg h02, posOf, if_neg h12, posOf, if_pos rfl]
  have hmem1 : (v1 : Pt) ∈ [v0, v1] := List.mem_cons_of_mem _ (List.mem_singleton.2 rfl)
  have hmem2 : (v2 : Pt) ∈ [v0, v1, v2] :=
    List.mem_cons_of_mem _ (List.mem_cons_of_mem _ (List.mem_singleton.2 rfl))
  have hlen4 : ∀ k : Nat, k < 4 → k < ([v0, v1, v2, v3] : List Pt).length := by
    intro k hk
    simpa using hk
  have he1a : emitSide [v0, v1, v2, v3] 0 [] [] [] = .ok ([v0], [0], [0]) :=
    emitSide_not_mem (hlen4 0 (by decide)) (List.not_mem_nil _)
  have he1b : emitSide [v0, v1, v2, v3] 1 [v0] [0] [0] =
      .ok ([v0, v1], [0, 1], [0, 1]) :=
    emitSide_not_mem (hlen4 1 (by decide)) hm1
  have hemit1 : emitEdge [v0, v1, v2, v3] (0, 1) [] [] =
      .ok ([v0, v1], [0, 1], [0, 1]) := emitEdge_eval he1a he1b
  have he2a : emitSide [v0, v1, v2, v3] 1 [v0, v1] [0, 1] [] =
      .ok ([v0, v1], [0, 1], [1]) := by
    rw [emitSide_mem (hlen4 1 (by decide)) hmem1, hpos1]
    rfl
  have he2b : emitSide [v0, v1, v2, v3] 2 [v0, v1] [0, 1] [1] =
      .ok ([v0, v1, v2], [0, 1, 2], [1, 2]) :=
    emitSide_not_mem (hlen4 2 (by decide)) hm2
  have hemit2 : emitEdge [v0, v1, v2, v3] (1, 2) [v0, v1] [0, 1] =
      .ok ([v0, v1, v2], [0, 1, 2], [1, 2]) := emitEdge_eval he2a he2b
  have he3a : emitSide [v0, v1, v2, v3] 2 [v0, v1, v2] [0, 1, 2] [] =
      .ok ([v0, v1, v2], [0, 1, 2], [2]) := by
    rw [emitSide_mem (hlen4 2 (by decide)) hmem2, hpos2]
    rfl
  have he3b : emitSide [v0, v1, v2, v3] 3 [v0, v1, v2] [0, 1, 2] [2] =
      .ok ([v0, v1, v2, v3], [0, 1, 2, 3], [2, 3]) :=
    emitSide_not_mem (hlen4 3 (by decide)) hm3
  have hemit3 : emitEdge [v0, v1, v2, v3] (2, 3) [v0, v1, v2] [0, 1, 2] =
      .ok ([v0, v1, v2, v3], [0, 1, 2, 3], [2, 3]) := emitEdge_eval he3a he3b
  have step1 : walkStep [v0, v1, v2, v3] [(0, 1), (1, 2), (2, 3)] true [(3, 1, 2)]
      ⟨[(1, 2, 1), (2, 3, 2)], 0, 0, [], [], []⟩ =
      .ok ⟨[(2, 3, 2)], 1, 0, [v0, v1], [[0, 1]], [0, 1]⟩ :=
    walkStep_eval_cont0 hemit1 rfl
  have step2 : walkStep [v0, v1, v2, v3] [(0, 1), (1, 2), (2, 3)] true [(3, 1, 2)]
      ⟨[(2, 3, 2)], 1, 0, [v0, v1], [[0, 1]], [0, 1]⟩ =
      .ok ⟨[], 2, 0, [v0, v1, v2], [[0, 1], [1, 2]], [0, 1, 2]⟩ :=
    walkStep_eval_cont0 hemit2 rfl
  have step3 : walkStep [v0, v1, v2, v3] [(0, 1), (1, 2), (2, 3)] true [(3, 1, 2)]
      ⟨[], 2, 0, [v0, v1, v2], [[0, 1], [1, 2]], [0, 1, 2]⟩ =
      .ok ⟨[], 2, 0, [v0, v1, v2, v3], [[0, 1], [1, 2], [2, 3]], [0, 1, 2, 3]⟩ :=
    walkStep_eval_stop hemit3 rfl rfl rfl
  have hloop : walkLoop [v0, v1, v2, v3] [(0, 1), (1, 2), (2, 3)] true [(3, 1, 2)] 3
      ⟨[(1, 2, 1), (2, 3, 2)], 0, 0, [], [], []⟩ =
      .ok ⟨[], 2, 0, [v0, v1, v2, v3], [[0, 1], [1, 2], [2, 3]], [0, 1, 2, 3]⟩ := by
    rw [walkLoop_unroll 2 step1, walkLoop_unroll 1 step2, walkLoop_unroll 0 step3,
      walkLoop]
  have hsc : startChoice [v0, v1, v2, v3] [(0, 1), (1, 2), (2, 3)] true =
      .ok (true, [(3, 1, 2)], 0, 0) := rfl
  have hpop : popAt (copyFrom 0 [(0, 1), (1, 2), (2, 3)]) 0 =
      .ok [(1, 2, 1), (2, 3, 2)] := rfl
  exact sort_eval_noappend hsc hpop hloop rfl

/-! ### Degree-0 points under distinct coordinates -/

/-- C8 (amended): in connectivity mode with PAIRWISE-DISTINCT points, every
point touched by zero edges appears exactly once in the output order
(`count = 1`), strictly after every position referenced by the reindexed edge
list — in particular it never occurs inside a reindexed edge, which only
references positions of walk-emitted vertices — and the degree-0 points
appear in their original relative order (their subsequence of the trace is
exactly the ascending list of degree-0 indices).  The distinctness proviso is
forced: a degree-0 point whose coordinates equal an already-visited point's
is dropped entirely (see the counterexample). -/
theorem c8_isolated_points {vIn : List Pt} {eIn : List Edge} {lm : Bool}
    {r : List Pt × List (List Nat) × List Nat} {i0 : Nat}
    (h : sort_vertices_by_connexions vIn eIn lm = .ok r)
    (hne : vIn.Pairwise (fun a b => a ≠ b))
    (hiso : ∀ e ∈ eIn, e.1 ≠ i0 ∧ e.2 ≠ i0) (hi0 : i0 < vIn.length) :
    r.2.2.count i0 = 1 ∧
    (∀ ed ∈ r.2.1, ∀ k ∈ ed, k < posOf i0 r.2.2) ∧
    r.2.2.filter (untouchedB eIn) = (List.range vIn.length).filter (untouchedB eIn) := by
  have hinj := pairwise_ne_ptInj hne
  obtain ⟨s, ⟨hmap, hnd, hlt, htouch, heout, -, -⟩, hedges, hcase⟩ := sort_connex_cases h
  have hnd2 : (s.index.map (lookupPt vIn)).Nodup := hmap ▸ hnd
  have hidx_nd : s.index.Nodup := hnd2.of_map
  have hnotmem : i0 ∉ s.index := by
    intro hm
    obtain ⟨e, he, hor⟩ := htouch i0 hm
    rcases hor with h1 | h1
    · exact (hiso e he).1 h1.symm
    · exact (hiso e he).2 h1.symm
  rcases hcase with ⟨-, -, hidx⟩ | ⟨hlen, -, hidx⟩
  · have hform : r.2.2 = s.index ++ (List.range' 0 vIn.length).filter
        (fun j => !decide (j ∈ s.index)) := by
      rw [hidx, addUnconnected_idx hinj vIn 0 s.vertsOut s.index (List.drop_zero vIn)
        hmap hlt]
    have hBnd : ((List.range' 0 vIn.length).filter
        (fun j => !decide (j ∈ s.index))).Nodup := by
      refine List.Nodup.filter _ ?_
      rw [← List.range_eq_range']
      exact List.nodup_range _
    have hi0B : i0 ∈ (List.range' 0 vIn.length).filter
        (fun j => !decide (j ∈ s.index)) := by
      refine List.mem_filter.2 ⟨?_, by simpa using hnotmem⟩
      rw [← List.range_eq_range']
      exact List.mem_range.2 hi0
    refine ⟨?_, ?_, ?_⟩
    · rw [hform, List.count_append]
      rw [List.count_eq_zero.2 hnotmem, List.count_eq_one_of_mem hBnd hi0B]
    · intro ed hed k hk
      have h1 : k < s.vertsOut.length := heout ed (hedges ▸ hed) k hk
      have h2 : posOf i0 (s.index ++ (List.range' 0 vIn.length).filter
          (fun j => !decide (j ∈ s.index))) =
          s.index.length + posOf i0 ((List.range' 0 vIn.length).filter
            (fun j => !decide (j ∈ s.index))) :=
        posOf_append i0 _ _ hnotmem
      have h3 : s.vertsOut.length = s.index.length := by rw [hmap, List.length_map]
      rw [hform, h2]
      omega
    · rw [hform, List.filter_append]
      have hfA : s.index.filter (untouchedB eIn) = [] := by
        rw [List.filter_eq_nil_iff]
        intro a ha
        obtain ⟨e, he, hor⟩ := htouch a ha
        simp only [untouchedB, decide_eq_true_eq]
        intro hall
        rcases hor with h1 | h1
        · exact (hall e he).1 h1.symm
        · exact (hall e he).2 h1.symm
      have hfB : ((List.range' 0 vIn.length).filter
            (fun j => !decide (j ∈ s.index))).filter (untouchedB eIn) =
          (List.range' 0 vIn.length).filter (untouchedB eIn) := by
        rw [List.filter_filter]
        apply List.filter_congr
        intro a _
        cases hu : untouchedB eIn a
        · simp
        · have hna : a ∉ s.index := by
            intro hm
            obtain ⟨e, he, hor⟩ := htouch a hm
            rw [untouchedB, decide_eq_true_eq] at hu
            rcases hor with h1 | h1
            · exact (hu e he).1 h1.symm
            · exact (hu e he).2 h1.symm
          simp [hna]
      rw [hfA, hfB, List.nil_append, List.range_eq_range']
  · exfalso
    have hsub : s.index.Subperm (List.range vIn.length) :=
      hidx_nd.subperm fun i hi => List.mem_range.2 (hlt i hi)
    have hlen2 : (List.range vIn.length).length ≤ s.index.length := by
      rw [List.length_range]
      have hml : s.vertsOut.length = s.index.length := by rw [hmap, List.length_map]
      omega
    exact hnotmem ((hsub.perm_of_length_le hlen2).mem_iff.2 (List.mem_range.2 hi0))

/-! ### Remaining shared helpers -/

theorem connex_final_inv {vIn : List Pt} {eIn : List Edge} {lm : Bool}
    {r : List Pt × List (List Nat) × List Nat}
    (h : sort_vertices_by_connexions vIn eIn lm = .ok r) :
    r.1 = r.2.2.map (lookupPt vIn) ∧ r.1.Nodup ∧ ∀ j ∈ r.2.2, j < vIn.length := by
  obtain ⟨s, ⟨hmap, hnd, hlt, -, -, -, -⟩, -, hcase⟩ := sort_connex_cases h
  rcases hcase with ⟨-, hv, hidx⟩ | ⟨-, hv, hidx⟩
  · have hadd := addUnconnected_inv vIn 0 s.vertsOut s.index (List.drop_zero vIn)
      hmap hnd hlt
    rw [hv, hidx]
    exact hadd
  · rw [hv, hidx]
    exact ⟨hmap, hnd, hlt⟩

theorem find?_first_min {R : α → α → Prop} (p : α → Bool) :
    ∀ l : List α, l.Pairwise R → ∀ x, l.find? p = some x →
      ∀ y ∈ l, p y = true → x = y ∨ R x y
  | [], _, x, h, _, _, _ => by simp [List.find?] at h
  | a :: t, hp, x, h, y, hy, hpy => by
    by_cases hpa : p a
    · rw [List.find?_cons_of_pos _ hpa] at h
      obtain rfl : a = x := Option.some.injEq .. ▸ h
      rcases List.mem_cons.1 hy with rfl | hy2
      · exact Or.inl rfl
      · exact Or.inr (List.rel_of_pairwise_cons hp hy2)
    · rw [List.find?_cons_of_neg _ (by simpa using hpa)] at h
      rcases List.mem_cons.1 hy with rfl | hy2
      · exact absurd hpy hpa
      · exact find?_first_min p t hp.of_cons x h y hy2 hpy

/-! ## The claims -/

/-- C1 (amended): for the XYZ mode the `Item order` output is always a
permutation of `{0,...,N-1}`.  For the Auto Direction mode it is a
permutation whenever the reverse option is off; with reverse on the
`Item order` output is EMPTY — `reversed()` returns a one-shot iterator that
the unconditional `Vertices` comprehension exhausts — hence not a permutation
for `N ≥ 1`.  For the connectivity mode it is a permutation provided the
points are pairwise distinct — with coincident points the walk deduplicates
by coordinate value and drops indices (see the counterexample). -/
theorem c1_item_order_permutation :
    (∀ (rx ry rz : Bool) (v : List Pt),
        (xyzOrder rx ry rz v).Perm (List.range v.length)) ∧
    (∀ (d : Pt) (v : List Pt),
        (adirOrder d false v).Perm (List.range v.length)) ∧
    (∀ (d : Pt) (v : List Pt), adirOrder d true v = []) ∧
    ∀ (vIn : List Pt) (eIn : List Edge) (lm : Bool)
      (r : List Pt × List (List Nat) × List Nat),
      sort_vertices_by_connexions vIn eIn lm = .ok r →
      vIn.Pairwise (fun a b => a ≠ b) → r.2.2.Perm (List.range vIn.length) :=
  ⟨xyzOrder_perm_range, adirOrder_false_perm_range, adirOrder_true_nil,
    fun _ _ _ _ h hne => connex_index_perm h hne⟩

/-- C1 counterexample, refuting the claim as stated on two modes: in
connectivity mode two coincident points joined by one edge yield trace `[0]`,
not a permutation of `{0, 1}`; in Auto Direction mode with reverse on the
item order of a one-point list is `[]`, not a permutation of `{0}`. -/
theorem c1_cex :
    (sort_vertices_by_connexions [(0, 0, 0), (0, 0, 0)] [(0, 1)] true =
        .ok ([(0, 0, 0)], [[0, 0]], [0]) ∧
      ¬ ([0] : List Nat).Perm (List.range 2)) ∧
    adirOrder (1, 0, 0) true [(0, 0, 0)] = [] ∧
    ¬ ([] : List Nat).Perm (List.range 1) :=
  ⟨⟨rfl, by decide⟩, rfl, by decide⟩

/-- C1 witness: the four parts instantiated at concrete inputs. -/
theorem c1_witness :
    (xyzOrder true false false [(1, 0, 0), (0, 0, 0)]).Perm (List.range 2) ∧
    (adirOrder (1, 0, 0) false [(1, 0, 0), (0, 0, 0)]).Perm (List.range 2) ∧
    adirOrder (1, 0, 0) true [(1, 0, 0), (0, 0, 0)] = [] ∧
    ([0, 1, 2] : List Nat).Perm (List.range 3) := by
  refine ⟨c1_item_order_permutation.1 true false false _,
    c1_item_order_permutation.2.1 (1, 0, 0) _,
    c1_item_order_permutation.2.2.1 (1, 0, 0) _, ?_⟩
  exact c1_item_order_permutation.2.2.2 [(0, 0, 0), (1, 0, 0), (2, 0, 0)] [(0, 1), (1, 2)]
    false ([(0, 0, 0), (1, 0, 0), (2, 0, 0)], [[0, 1], [1, 2]], [0, 1, 2]) rfl (by decide)

/-- C2 witness: the chain theorem at four concrete distinct points. -/
theorem c2_witness :
    sort_vertices_by_connexions [(0, 0, 0), (1, 0, 0), (2, 0, 0), (3, 0, 0)]
        [(0, 1), (1, 2), (2, 3)] true =
      .ok ([(0, 0, 0), (1, 0, 0), (2, 0, 0), (3, 0, 0)],
        [[0, 1], [1, 2], [2, 3]], [0, 1, 2, 3]) :=
  c2_chain_roundtrip (0, 0, 0) (1, 0, 0) (2, 0, 0) (3, 0, 0) (by decide) (by decide)
    (by decide) (by decide) (by decide) (by decide)

/-- C2 counterexample: the same chain over 4 points of which two coincide —
the order visits only 3 entries, so it does not visit all 4 points once. -/
theorem c2_cex :
    sort_vertices_by_connexions [(0, 0, 0), (0, 0, 0), (1, 0, 0), (2, 0, 0)]
        [(0, 1), (1, 2), (2, 3)] true =
      .ok ([(0, 0, 0), (1, 0, 0), (2, 0, 0)], [[0, 0], [0, 1], [1, 2]], [0, 2, 3]) ∧
    ([0, 2, 3] : List Nat).length ≠ 4 :=
  ⟨rfl, by decide⟩

/-- C3 (code evaluated at the failing input): an open chain `(0,1)` plus a
disjoint triangle `(2,3),(3,4),(4,2)` (all degrees ≤ 2) with limit detection
on.  After the chain dead-ends every remaining limit is visited, the Python
`for lim in limits` restart loop falls through without choosing a new edge,
and the loop re-emits the already-consumed edge `(0,1)` on every remaining
iteration: the reindexed edge output lists `[0, 1]` four times and the three
triangle edges are never consumed — the claim that each input edge is
consumed exactly once is violated by the code. -/
theorem c3_limit_restart_starves :
    sort_vertices_by_connexions [(0, 0, 0), (1, 0, 0), (2, 0, 0), (3, 0, 0), (4, 0, 0)]
        [(0, 1), (2, 3), (3, 4), (4, 2)] true =
      .ok ([(0, 0, 0), (1, 0, 0), (2, 0, 0), (3, 0, 0), (4, 0, 0)],
        [[0, 1], [0, 1], [0, 1], [0, 1]], [0, 1, 2, 3, 4]) ∧
    ([[0, 1], [0, 1], [0, 1], [0, 1]] : List (List Nat)).count [0, 1] = 4 ∧
    ∀ ed ∈ ([[0, 1], [0, 1], [0, 1], [0, 1]] : List (List Nat)), ed = [0, 1] :=
  ⟨rfl, by decide, by decide⟩

/-- C4: in XYZ mode the computed item order equals successive stable sorts of
the index list — first by the x key, then re-stable-sorting by y, then by z,
each key independently negated per its reverse flag (ties preserve the order
established earlier); in particular `[(0,0,0),(1,0,0),(2,0,0)]` yields
`[2,1,0]` with the X reverse flag on and `[0,1,2]` with no flags. -/
theorem c4_successive_stable_sorts :
    (∀ (rx ry rz : Bool) (v : List Pt),
        xyzOrder rx ry rz v = specAxisOrder rx ry rz v) ∧
    xyzOrder true false false [(0, 0, 0), (1, 0, 0), (2, 0, 0)] = [2, 1, 0] ∧
    xyzOrder false false false [(0, 0, 0), (1, 0, 0), (2, 0, 0)] = [0, 1, 2] :=
  ⟨fun rx ry rz v => (specAxisOrder_eq_xyzOrder rx ry rz v).symm, by decide, by decide⟩

/-- C5 (amended): at a dead end the traversal resumes from the first unvisited
limit in the limit list, and `find_limits` builds that list in ascending
VERTEX-index order — so the unvisited limit with the lowest original POINT
index wins, not the one with the lowest original edge index (see the
counterexample, where the restart picks vertex 2's limit of edge 2 although
vertex 4's limit of edge 0 is also unvisited). -/
theorem c5_restart_lowest_vertex {vIn : List Pt} {eIn : List Edge} {limits : List Limit}
    (hfl : find_limits vIn eIn = .ok limits) (idx : List Nat) (lm : Limit)
    (hfr : findRestart limits.tail idx = some lm) :
    ∀ lm2 ∈ limits.tail, lm2.1 ∉ idx → lm.1 ≤ lm2.1 := by
  have hpw : limits.tail.Pairwise (fun a b : Limit => a.1 < b.1) :=
    List.Pairwise.sublist (List.tail_sublist limits) (find_limits_spec hfl).2
  intro lm2 hlm2 hnm
  have hp2 : (fun l : Limit => !decide (l.1 ∈ idx)) lm2 = true := by simpa using hnm
  unfold findRestart at hfr
  rcases find?_first_min (fun l : Limit => !decide (l.1 ∈ idx)) limits.tail hpw lm hfr
      lm2 hlm2 hp2 with rfl | hlt2
  · exact le_refl _
  · exact le_of_lt hlt2

/-- C5 counterexample: three disjoint segments with edges
`[(4,5),(0,1),(2,3)]` over six distinct points.  The walk starts from vertex
0's limit (edge 1) and dead-ends at vertex 1 with the limits of vertices
2, 3, 4, 5 all unvisited; the lowest ORIGINAL EDGE index among them is edge 0
(vertices 4, 5), so the claimed policy demands order `[0,1,4,5,2,3]` — but
the code resumes from vertex 2 (edge 2) and produces `[0,1,2,3,4,5]`. -/
theorem c5_cex :
    sort_vertices_by_connexions
        [(0, 0, 0), (1, 0, 0), (2, 0, 0), (3, 0, 0), (4, 0, 0), (5, 0, 0)]
        [(4, 5), (0, 1), (2, 3)] true =
      .ok ([(0, 0, 0), (1, 0, 0), (2, 0, 0), (3, 0, 0), (4, 0, 0), (5, 0, 0)],
        [[0, 1], [2, 3], [4, 5]], [0, 1, 2, 3, 4, 5]) ∧
    ([0, 1, 2, 3, 4, 5] : List Nat) ≠ [0, 1, 4, 5, 2, 3] :=
  ⟨rfl, by decide⟩

/-- C5 witness: the amended theorem at the counterexample's own data. -/
theorem c5_witness :
    find_limits [(0, 0, 0), (1, 0, 0), (2, 0, 0), (3, 0, 0), (4, 0, 0), (5, 0, 0)]
        [(4, 5), (0, 1), (2, 3)] =
      .ok [(0, 0, 1), (1, 1, 1), (2, 0, 2), (3, 1, 2), (4, 0, 0), (5, 1, 0)] ∧
    findRestart [(1, 1, 1), (2, 0, 2), (3, 1, 2), (4, 0, 0), (5, 1, 0)] [0, 1] =
      some (2, 0, 2) ∧
    ∀ lm2 ∈ ([(1, 1, 1), (2, 0, 2), (3, 1, 2), (4, 0, 0), (5, 1, 0)] : List Limit),
      lm2.1 ∉ ([0, 1] : List Nat) → 2 ≤ lm2.1 := by
  refine ⟨rfl, rfl, ?_⟩
  exact fun lm2 h2 h3 =>
    @c5_restart_lowest_vertex
      [(0, 0, 0), (1, 0, 0), (2, 0, 0), (3, 0, 0), (4, 0, 0), (5, 0, 0)]
      [(4, 5), (0, 1), (2, 3)]
      [(0, 0, 1), (1, 1, 1), (2, 0, 2), (3, 1, 2), (4, 0, 0), (5, 1, 0)]
      rfl [0, 1] (2, 0, 2) rfl lm2 h2 h3

/-- C6 (amended): in Auto Direction mode the sort key of each point is its
scalar projection on the fitted direction, but enabling the reverse option is
NOT equivalent to negating that key for all outputs.  Only the `Vertices`
output follows the reversed order: the sequence the `Vertices` comprehension
traverses equals — whenever the projections are pairwise distinct — the
stable sort by the negated key, and the vertex output is its first-component
map.  The `Item order` output, however, is EMPTY, because `reversed()` is a
one-shot iterator that the `Vertices` comprehension has already exhausted
(and the `v_index` dict of the PolyEdge remap is likewise built from the
exhausted iterator), so the outputs are not all consistent with the
negated-key permutation (see the counterexample). -/
theorem c6_reverse_negated_key (d : Pt) (v : List Pt)
    (hd : v.Pairwise fun p q => dot3 p d ≠ dot3 q d) :
    adirSV d true v = adirNegSV d v ∧
    adirVerts d true v = (adirNegSV d v).map Prod.fst ∧
    adirOrder d true v = [] := by
  have h := adir_reverse_eq_negSort d v hd
  refine ⟨h, ?_, rfl⟩
  unfold adirVerts
  rw [h]

/-- C6 counterexample: two points with distinct projections on the direction
`(1,0,0)`.  With reverse on the code's `Item order` output is `[]` (iterator
exhaustion), while the stable sort by the negated projection yields the
permutation `[1, 0]` — so the outputs with reverse on do not equal the
outputs of the negated-key stable sort. -/
theorem c6_cex :
    adirOrder (1, 0, 0) true [(0, 0, 0), (1, 0, 0)] = [] ∧
    (adirNegSV (1, 0, 0) [(0, 0, 0), (1, 0, 0)]).map Prod.snd = [1, 0] ∧
    ([] : List Nat) ≠ [1, 0] :=
  ⟨rfl, rfl, by decide⟩

/-- C6 witness: distinct projections at a concrete direction and point list. -/
theorem c6_witness :
    adirSV (1, 0, 0) true [(1, 0, 0), (0, 0, 0)] =
      adirNegSV (1, 0, 0) [(1, 0, 0), (0, 0, 0)] ∧
    adirVerts (1, 0, 0) true [(1, 0, 0), (0, 0, 0)] =
      (adirNegSV (1, 0, 0) [(1, 0, 0), (0, 0, 0)]).map Prod.fst ∧
    adirOrder (1, 0, 0) true [(1, 0, 0), (0, 0, 0)] = [] :=
  c6_reverse_negated_key (1, 0, 0) [(1, 0, 0), (0, 0, 0)] (by decide)

/-- C7 (amended): index remapping fails with `UnknownIndexError` exactly when
an edge/face references an original index absent from the computed trace.  In
XYZ mode the trace contains every in-range index, so remapping succeeds
exactly when all references lie inside the supplied point set; in
connectivity mode remapping succeeds exactly when every reference is in the
trace — which coincident points can drop, so an in-range reference may still
fail there (see the counterexample).  On failure the whole remap aborts with
no partial result (`mapE` returns nothing but the error). -/
theorem c7_remap_failure_characterisation :
    (∀ (rx ry rz : Bool) (v : List Pt) (p : List (List Nat)),
        okE (xyzRemap rx ry rz v p) ↔ ∀ pe ∈ p, ∀ n ∈ pe, n < v.length) ∧
    ∀ (idxNew : List Nat) (pols : List (List Nat)),
      okE (connexRemapPols idxNew pols) ↔ ∀ pol ∈ pols, ∀ i ∈ pol, i ∈ idxNew := by
  constructor
  · intro rx ry rz v p
    unfold xyzRemap
    rw [mapE_ok_iff]
    constructor
    · intro hall pe hpe n hn
      have h2 := (mapE_ok_iff _ pe).1 (hall pe hpe) n hn
      rw [xyzVIndex_ok_iff] at h2
      exact List.mem_range.1 ((xyzOrder_perm_range rx ry rz v).mem_iff.1 h2)
    · intro hall pe hpe
      rw [mapE_ok_iff]
      intro n hn
      rw [xyzVIndex_ok_iff]
      exact (xyzOrder_perm_range rx ry rz v).mem_iff.2 (List.mem_range.2 (hall pe hpe n hn))
  · intro idxNew pols
    unfold connexRemapPols
    rw [mapE_ok_iff]
    constructor
    · intro hall pol hpol i hi
      have h2 := (mapE_ok_iff _ pol).1 (hall pol hpol) i hi
      rw [connexPos_ok_iff] at h2
      exact h2
    · intro hall pol hpol
      rw [mapE_ok_iff]
      intro i hi
      rw [connexPos_ok_iff]
      exact hall pol hpol i hi

/-- C7 counterexample: three points of which two coincide, one triangular
face.  Every face reference (0, 1, 2) lies inside the supplied point set, yet
the CONNEX remap raises `UnknownIndexError`, because the coordinate-level
deduplication leaves index 1 out of the trace. -/
theorem c7_cex :
    connexProcessOne [(0, 0, 0), (0, 0, 0), (1, 0, 0)] [[0, 1, 2]] false =
      .error "UnknownIndexError" ∧
    ∀ pol ∈ ([[0, 1, 2]] : List (List Nat)), ∀ i ∈ pol, i < 3 :=
  ⟨rfl, by decide⟩

/-- C7 witness: both characterisations applied at concrete inputs. -/
theorem c7_witness :
    okE (xyzRemap false false false [(0, 0, 0), (1, 0, 0)] [[0, 1], [1]]) ∧
    okE (connexRemapPols [0, 2] [[0], [2, 0]]) :=
  ⟨(c7_remap_failure_characterisation.1 false false false [(0, 0, 0), (1, 0, 0)]
      [[0, 1], [1]]).mpr (by decide),
    (c7_remap_failure_characterisation.2 [0, 2] [[0], [2, 0]]).mpr (by decide)⟩

/-- C9: axis-sort idempotence — for every point list and any combination of
the three reverse flags, applying the XYZ sort to the vertex output of a
previous XYZ sort with the same flags yields the identity permutation as the
item order. -/
theorem c9_axis_sort_idempotence (rx ry rz : Bool) (v : List Pt) :
    xyzOrder rx ry rz (xyzVerts rx ry rz v) = List.range v.length := by
  unfold xyzOrder
  rw [xyzSV_verts_fixed, decorate_map_snd, xyzVerts_length]

/-- C10: in connectivity mode visited vertices are deduplicated by coordinate
value, not by original index — on every successful run the output vertex list
has no duplicate coordinate value and equals the trace mapped through the
input coordinates, the trace never records two indices holding the same
coordinates, and whenever two in-range positions hold identical coordinates
the trace is strictly shorter than the input point count. -/
theorem c10_coordinate_dedup :
    (∀ (vIn : List Pt) (eIn : List Edge) (lm : Bool)
        (r : List Pt × List (List Nat) × List Nat),
        sort_vertices_by_connexions vIn eIn lm = .ok r →
        r.1.Nodup ∧ r.1 = r.2.2.map (lookupPt vIn) ∧
          ∀ i ∈ r.2.2, ∀ j ∈ r.2.2, lookupPt vIn i = lookupPt vIn j → i = j) ∧
    ∀ (vIn : List Pt) (eIn : List Edge) (lm : Bool)
      (r : List Pt × List (List Nat) × List Nat),
      sort_vertices_by_connexions vIn eIn lm = .ok r →
      ∀ i j, i < j → j < vIn.length → lookupPt vIn i = lookupPt vIn j →
        r.2.2.length < vIn.length := by
  constructor
  · intro vIn eIn lm r h
    obtain ⟨hmap, hnd, -⟩ := connex_final_inv h
    refine ⟨hnd, hmap, ?_⟩
    have hnd2 : (r.2.2.map (lookupPt vIn)).Nodup := hmap ▸ hnd
    exact fun i hi j hj heq => List.inj_on_of_nodup_map hnd2 hi hj heq
  · intro vIn eIn lm r h i j hij hj heq
    obtain ⟨hmap, hnd, hlt⟩ := connex_final_inv h
    have hnd2 : (r.2.2.map (lookupPt vIn)).Nodup := hmap ▸ hnd
    have hidx_nd : r.2.2.Nodup := hnd2.of_map
    by_contra hge
    have hge2 : vIn.length ≤ r.2.2.length := Nat.le_of_not_lt hge
    have hsub : r.2.2.Subperm (List.range vIn.length) :=
      hidx_nd.subperm fun a ha => List.mem_range.2 (hlt a ha)
    have hperm := hsub.perm_of_length_le (by rw [List.length_range]; exact hge2)
    have hi2 : i ∈ r.2.2 := hperm.mem_iff.2 (List.mem_range.2 (lt_trans hij hj))
    have hj2 : j ∈ r.2.2 := hperm.mem_iff.2 (List.mem_range.2 hj)
    exact absurd (List.inj_on_of_nodup_map hnd2 hi2 hj2 heq) (Nat.ne_of_lt hij)

/-- C10 witness: two coincident points and one edge — the single coordinate is
listed once, and the trace is shorter than the input count. -/
theorem c10_witness :
    sort_vertices_by_connexions [(0, 0, 0), (0, 0, 0)] [(0, 1)] true =
      .ok ([(0, 0, 0)], [[0, 0]], [0]) ∧
    ([(0, 0, 0)] : List Pt).Nodup ∧ ([0] : List Nat).length < 2 := by
  refine ⟨rfl, ?_, ?_⟩
  · exact (c10_coordinate_dedup.1 [(0, 0, 0), (0, 0, 0)] [(0, 1)] true
      ([(0, 0, 0)], [[0, 0]], [0]) rfl).1
  · exact c10_coordinate_dedup.2 [(0, 0, 0), (0, 0, 0)] [(0, 1)] true
      ([(0, 0, 0)], [[0, 0]], [0]) rfl 0 1 (by decide) (by decide) rfl

/-- C8 counterexample: the isolated point 2 duplicates the coordinates of the
visited point 0, so the closing loop never appends it: it appears ZERO times
in the output order. -/
theorem c8_cex :
    sort_vertices_by_connexions [(0, 0, 0), (1, 0, 0), (0, 0, 0)] [(0, 1)] false =
      .ok ([(0, 0, 0), (1, 0, 0)], [[0, 1]], [0, 1]) ∧
    ([0, 1] : List Nat).count 2 = 0 :=
  ⟨rfl, by decide⟩

/-- C8 witness: distinct points, one edge, one isolated point. -/
theorem c8_witness :
    sort_vertices_by_connexions [(0, 0, 0), (1, 0, 0), (2, 0, 0)] [(0, 1)] false =
      .ok ([(0, 0, 0), (1, 0, 0), (2, 0, 0)], [[0, 1]], [0, 1, 2]) ∧
    ([0, 1, 2] : List Nat).count 2 = 1 ∧
    (∀ ed ∈ ([[0, 1]] : List (List Nat)), ∀ k ∈ ed,
      k < posOf 2 ([0, 1, 2] : List Nat)) ∧
    ([0, 1, 2] : List Nat).filter (untouchedB [(0, 1)]) =
      (List.range 3).filter (untouchedB [(0, 1)]) := by
  refine ⟨rfl, ?_⟩
  exact @c8_isolated_points [(0, 0, 0), (1, 0, 0), (2, 0, 0)] [(0, 1)] false
    ([(0, 0, 0), (1, 0, 0), (2, 0, 0)], [[0, 1]], [0, 1, 2]) 2 rfl (by decide)
    (by decide) (by decide)

end VSort
